import Mathlib

/-!
# ormb `pkg/saver`: `Save` and `Tar`

A shallow embedding of `pkg/saver/saver.go`.  Paths are lists of characters,
file contents are lists of bytes, errors are their message text.  The operating
system is a snapshot tree with fault annotations, the Go standard library
functions the code calls (`filepath.Clean`, `filepath.Dir`, `filepath.Join`,
`filepath.Walk`, `strings.Replace`, `strings.TrimPrefix`, `io.Copy`) are written
out as functions, and the tar and gzip encoders are a parameter.
-/

namespace Saver

/-! ## Strings and paths -/

/-- A path or file name, one character per element. -/
abbrev Path := List Char

/-- An error, identified with the text that `err.Error()` returns. -/
abbrev Err := String

/-- The path separator `filepath.Separator` on the platforms ormb targets. -/
def Separator : Char := '/'

/-- The scanning loop of `strings.Replace(s, old, new, -1)` for a non-empty `old`:
matches are found left to right and do not overlap.  The counter is the number of
characters of the current match still to be skipped. -/
def replaceScan (old new : List Char) : Nat → List Char → List Char
  | _, [] => []
  | k + 1, _ :: cs => replaceScan old new k cs
  | 0, c :: cs =>
    if old.isPrefixOf (c :: cs) then new ++ replaceScan old new (old.length - 1) cs
    else c :: replaceScan old new 0 cs

/-- The function `strings.Replace(s, old, new, -1)`: every non-overlapping
occurrence of `old` in `s` is replaced by `new`.  With an empty `old`, `new` is
inserted before every character and at the end. -/
def ReplaceAll (s old new : List Char) : List Char :=
  if old = new then s
  else if old = [] then new ++ s.flatMap (fun c => c :: new)
  else replaceScan old new 0 s

/-- The scanning loop of `strings.Count` for a non-empty `old`. -/
def countScan (old : List Char) : Nat → List Char → Nat
  | _, [] => 0
  | k + 1, _ :: cs => countScan old k cs
  | 0, c :: cs =>
    if old.isPrefixOf (c :: cs) then countScan old (old.length - 1) cs + 1
    else countScan old 0 cs

/-- The function `strings.Count(s, old)`: the number of non-overlapping
occurrences of `old` in `s`. -/
def Count (s old : List Char) : Nat :=
  if old = [] then s.length + 1 else countScan old 0 s

/-- The function `strings.TrimPrefix(s, pre)`. -/
def TrimPrefix (s pre : List Char) : List Char :=
  if pre.isPrefixOf s then s.drop pre.length else s

/-- The elements of a path between separators; `"a//b"` has the elements
`a`, the empty element and `b`. -/
def splitSep : List Char → List (List Char)
  | [] => [[]]
  | c :: cs =>
    if c = Separator then [] :: splitSep cs
    else
      match splitSep cs with
      | [] => [[c]]
      | x :: xs => (c :: x) :: xs

/-- One element of `filepath.Clean`: the stack holds the elements kept so far,
last one first.  Empty and `.` elements are dropped, `..` removes the last
element when there is one to remove, is dropped at the root and is kept in
front of a relative path. -/
def cleanStep (rooted : Bool) (stack : List (List Char)) (comp : List Char) :
    List (List Char) :=
  if comp = [] ∨ comp = ['.'] then stack
  else if comp = ['.', '.'] then
    match stack with
    | top :: rest => if top = ['.', '.'] then comp :: stack else rest
    | [] => if rooted then [] else [comp]
  else comp :: stack

/-- The elements joined with single separators. -/
def joinSep : List (List Char) → List Char
  | [] => []
  | [x] => x
  | x :: y :: rest => x ++ Separator :: joinSep (y :: rest)

/-- The function `filepath.Clean` for slash-separated paths. -/
def Clean (path : List Char) : List Char :=
  if path = [] then ['.']
  else
    let rooted : Bool := path.head? = some Separator
    let stack := (splitSep path).foldl (cleanStep rooted) []
    let out := (if rooted then [Separator] else []) ++ joinSep stack.reverse
    if out = [] then ['.'] else out

/-- The function `filepath.Dir`: everything up to and including the last
separator, cleaned. -/
def Dir (path : List Char) : List Char :=
  Clean (path.reverse.dropWhile (fun c => c != Separator)).reverse

/-- The function `filepath.Join` for two elements. -/
def Join (a b : List Char) : List Char :=
  if a ≠ [] then Clean (a ++ Separator :: b)
  else if b ≠ [] then Clean b
  else []

/-- The function `filepath.Base`: the last element of the path. -/
def Base (path : List Char) : List Char :=
  if path = [] then ['.']
  else
    let p := (path.reverse.dropWhile (fun c => c == Separator)).reverse
    let last := (p.reverse.takeWhile (fun c => c != Separator)).reverse
    if last = [] then [Separator] else last

/-- The archive name `Tar` gives the walked path `file` (saver.go, lines 98-101):
`parentDir := filepath.Dir(src)` and
`strings.TrimPrefix(strings.Replace(file, parentDir, "", -1), string(filepath.Separator))`. -/
def headerName (src file : Path) : Path :=
  let parentDir := Dir src
  TrimPrefix (ReplaceAll file parentDir []) [Separator]

/-- The elements `filepath.Clean` keeps are not empty, are not `.` and hold no
separator; a `..` among them has only `..` below it on the stack, and none is
kept under the root. -/
def CleanStack (rooted : Bool) : List (List Char) → Prop
  | [] => True
  | top :: rest =>
    CleanStack rooted rest ∧ top ≠ [] ∧ top ≠ ['.'] ∧ Separator ∉ top ∧
      (top = ['.', '.'] → rooted = false ∧ ∀ x ∈ rest, x = ['.', '.'])

/-! ## The file system: a snapshot with faults -/

/-- What `fi.Mode()` says an entry is. -/
inductive Kind where
  | regular
  | dir
  | symlink
  | socket
  | device
  deriving DecidableEq

/-- Permission bits and modification time, as the file system reports them. -/
structure Attr where
  perm : Nat
  modTime : Nat
  deriving DecidableEq

/-- The part of `os.FileInfo` that `Tar` reads. -/
structure FileInfo where
  kind : Kind
  size : Nat
  attr : Attr
  deriving DecidableEq

/-- The test `fi.Mode().IsRegular()`. -/
def FileInfo.IsRegular (fi : FileInfo) : Bool :=
  fi.kind = Kind.regular

mutual
/-- One entry of the directory snapshot.  The faults are what the operating
system answers when the entry is touched: `openErr` is the error of `os.Open`,
`readFault = some (k, e)` makes reading fail with `e` after `k` bytes were
delivered, `readErr` is the error of listing a directory, `statErr` is the error
of `os.Stat` through a symbolic link (a dangling link), `special` is a socket or
a device, and `missing e` is a name whose `lstat` fails with `e`. -/
inductive Node where
  | regular (attr : Attr) (content : List Nat) (openErr : Option Err)
      (readFault : Option (Nat × Err))
  | dir (attr : Attr) (readErr : Option Err) (entries : Entries)
  | symlink (attr : Attr) (statErr : Option Err)
  | special (attr : Attr) (socket : Bool)
  | missing (err : Err)
/-- The names of a directory with what each one is, in the order
`readDirNames` returns them. -/
inductive Entries where
  | nil
  | cons (name : Path) (node : Node) (rest : Entries)
end

/-- The call `os.Lstat` on an entry of the snapshot. -/
def lstat : Node → Except Err FileInfo
  | .regular attr content _ _ => .ok ⟨Kind.regular, content.length, attr⟩
  | .dir attr _ _ => .ok ⟨Kind.dir, 0, attr⟩
  | .symlink attr _ => .ok ⟨Kind.symlink, 0, attr⟩
  | .special attr socket => .ok ⟨if socket then Kind.socket else Kind.device, 0, attr⟩
  | .missing e => .error e

/-- The call `os.Stat` on an entry of the snapshot: as `os.Lstat`, but a symbolic
link is followed and the call fails when the link dangles. -/
def stat : Node → Except Err Unit
  | .symlink _ (some e) => .error e
  | .missing e => .error e
  | _ => .ok ()

/-- An open read handle: the bytes its reads deliver, and the error that ends
them when it is not end-of-file. -/
structure Handle where
  data : List Nat
  readErr : Option Err
  deriving DecidableEq

/-- The call `os.Open` on an entry of the snapshot.  `Tar` opens regular files
only; for the other entries the call is made to fail. -/
def osOpen : Node → Except Err Handle
  | .regular _ content none none => .ok ⟨content, none⟩
  | .regular _ content none (some (k, e)) => .ok ⟨content.take k, some e⟩
  | .regular _ _ (some e) _ => .error e
  | .missing e => .error e
  | _ => .error "open: not a regular file"

/-- The file system a call sees: `ioutil.ReadFile` by path, and the snapshot
found at a path. -/
structure FS where
  readFile : Path → Except Err (List Nat)
  lookup : Path → Node

/-! ## The tar and gzip encoders -/

/-- The fields of `tar.Header` that `tar.FileInfoHeader` fills for a regular file. -/
structure Header where
  Name : Path
  Size : Nat
  Mode : Nat
  ModTime : Nat
  deriving DecidableEq

/-- The function `tar.FileInfoHeader(fi, fi.Name())`.  The name it sets is
replaced on the next line of `Tar` and is left empty here.  Only regular files
carry a size, and a socket has no header. -/
def FileInfoHeader (fi : FileInfo) : Except Err Header :=
  match fi.kind with
  | .socket => .error "archive/tar: sockets not supported"
  | .regular => .ok ⟨[], fi.size, fi.attr.perm, fi.attr.modTime⟩
  | _ => .ok ⟨[], 0, fi.attr.perm, fi.attr.modTime⟩

/-- The tar encoder over the gzip encoder over the destination writers, as a
state machine over a state `σ` that holds all three.  Each operation returns the
new state and the error of the call.  What the encoders emit and when the sink
fails is left to the instance. -/
structure Encoders (σ : Type) where
  /-- The state of `Save`: both encoders fresh over an empty `bytes.Buffer`. -/
  empty : σ
  /-- The bytes the sink holds. -/
  bytes : σ → List Nat
  /-- The call `tw.WriteHeader(header)`. -/
  writeHeader : σ → Header → σ × Option Err
  /-- The calls `tw.Write` that `io.Copy` makes for the bytes of one file. -/
  write : σ → List Nat → σ × Option Err
  /-- The call `tw.Close()`. -/
  closeTar : σ → σ × Option Err
  /-- The call `gzw.Close()`. -/
  closeGzip : σ → σ × Option Err

/-- What `Save` and `Tar` do to the outside, in the order they do it. -/
inductive Event where
  | readFile (path : Path)
  | stat (path : Path)
  | newGzip
  | newTar
  | writeHeader (header : Header)
  | openFile (path : Path)
  | copy (data : List Nat)
  | closeFile (path : Path)
  | closeTar
  | closeGzip
  deriving DecidableEq

/-- The encoders' state and the events so far. -/
structure World (σ : Type) where
  enc : σ
  trace : List Event

/-- The world after one more event. -/
def World.log {σ : Type} (w : World σ) (e : Event) : World σ :=
  ⟨w.enc, w.trace ++ [e]⟩

/-- The call `io.Copy(tw, f)`: the bytes the handle delivers go to the tar
encoder, and a write error comes before the read error that ends the data.
An empty read makes no write. -/
def ioCopy {σ : Type} (P : Encoders σ) (enc : σ) (f : Handle) : σ × Option Err :=
  if f.data = [] then (enc, f.readErr)
  else
    match P.write enc f.data with
    | (enc1, some e) => (enc1, some e)
    | (enc1, none) => (enc1, f.readErr)

/-! ## `filepath.Walk` -/

/-- The type `filepath.WalkFunc`, over a state it threads.  The entry of the
snapshot at `path` comes with the call: it is what `os.Open(path)` opens. -/
abbrev WalkFunc (W : Type) := Path → Node → Option FileInfo → Option Err → W → W × Option Err

mutual
/-- The function `walk` of `path/filepath`: the entry itself, then for a
directory that could be listed its names in order. -/
def walk {W : Type} (walkFn : WalkFunc W) (path : Path) (node : Node) (info : FileInfo)
    (w : W) : W × Option Err :=
  match node with
  | .dir attr readErr names =>
    match walkFn path (.dir attr readErr names) (some info) readErr w with
    | (w1, err1) =>
      if readErr.isSome || err1.isSome then (w1, err1)
      else walkNames walkFn path names w1
  | .regular attr content openErr readFault =>
    walkFn path (.regular attr content openErr readFault) (some info) none w
  | .symlink attr statErr => walkFn path (.symlink attr statErr) (some info) none w
  | .special attr socket => walkFn path (.special attr socket) (some info) none w
  | .missing e => walkFn path (.missing e) (some info) none w
/-- The loop of `walk` over the names of a directory. -/
def walkNames {W : Type} (walkFn : WalkFunc W) (path : Path) (names : Entries)
    (w : W) : W × Option Err :=
  match names with
  | .nil => (w, none)
  | .cons name child rest =>
    let filename := Join path name
    match lstat child with
    | .error e =>
      match walkFn filename child none (some e) w with
      | (w1, some e1) => (w1, some e1)
      | (w1, none) => walkNames walkFn path rest w1
    | .ok fileInfo =>
      match walk walkFn filename child fileInfo w with
      | (w1, some e1) => (w1, some e1)
      | (w1, none) => walkNames walkFn path rest w1
end

/-- The function `filepath.Walk`.  The walk function of `Tar` returns the errors
of the file system and of the encoders, never the marker `filepath.SkipDir`. -/
def Walk {W : Type} (root : Path) (node : Node) (walkFn : WalkFunc W) (w : W) :
    W × Option Err :=
  match lstat node with
  | .error e => walkFn root node none (some e) w
  | .ok info => walk walkFn root node info w

/-! ## `Tar` and `Save` -/

/-- The function literal `Tar` passes to `filepath.Walk` (saver.go, lines 80-124). -/
def tarWalkFn {σ : Type} (P : Encoders σ) (src : Path) : WalkFunc (World σ) :=
  fun file node fi err w =>
  -- return on any error
  match err with
  | some e => (w, some e)
  | none =>
  match fi with
  | none => (w, some "runtime error: invalid memory address or nil pointer dereference")
  | some fi =>
  -- return on non-regular files
  if !fi.IsRegular then (w, none)
  else
  -- create a new dir/file header
  match FileInfoHeader fi with
  | .error e => (w, some e)
  | .ok header0 =>
  let parentDir := Dir src
  -- update the name to correctly reflect the desired destination when untaring
  let header : Header :=
    { header0 with Name := TrimPrefix (ReplaceAll file parentDir []) [Separator] }
  -- write the header
  match P.writeHeader w.enc header with
  | (enc1, some e) => (⟨enc1, w.trace ++ [.writeHeader header]⟩, some e)
  | (enc1, none) =>
  let w1 : World σ := ⟨enc1, w.trace ++ [.writeHeader header]⟩
  -- open files for taring
  match osOpen node with
  | .error e => (w1, some e)
  | .ok f =>
  let w2 := w1.log (.openFile file)
  -- copy file data into tar writer
  match ioCopy P w2.enc f with
  | (enc3, some e) => (⟨enc3, w2.trace ++ [.copy f.data]⟩, some e)
  | (enc3, none) =>
  let w3 : World σ := ⟨enc3, w2.trace ++ [.copy f.data]⟩
  -- manually close here after each file operation
  (w3.log (.closeFile file), none)

/-- The function `Tar(src, writers...)` (saver.go, lines 64-125).  The writers
behind `io.MultiWriter` are part of the encoders' state.  The deferred calls run
after the walk, `tw.Close()` first and `gzw.Close()` second, and what they
return is dropped. -/
def Tar {σ : Type} (P : Encoders σ) (fs : FS) (src : Path) (w : World σ) :
    World σ × Option Err :=
  let w0 := w.log (.stat src)
  -- ensure the src actually exists before trying to tar it
  match stat (fs.lookup src) with
  | .error e => (w0, some ("Unable to tar files - " ++ e))
  | .ok _ =>
  let w1 := (w0.log .newGzip).log .newTar
  -- walk path
  match Walk src (fs.lookup src) (tarWalkFn P src) w1 with
  | (w2, res) =>
  let w3 : World σ := ⟨(P.closeTar w2.enc).1, w2.trace ++ [.closeTar]⟩
  let w4 : World σ := ⟨(P.closeGzip w3.enc).1, w3.trace ++ [.closeGzip]⟩
  (w4, res)

/-- Modelled from the spec: the constant `consts.ORMBfileName`, whose package is
not part of the sources; the metadata file is `<model-dir>/ormbfile.yaml`. -/
def ORMBfileName : Path := "ormbfile.yaml".toList

/-- Modelled from the spec: the constant `consts.ORMBModelDirectory`, whose
package is not part of the sources; the content directory is `<model-dir>/model`. -/
def ORMBModelDirectory : Path := "model".toList

/-- Modelled from the spec: the struct `model.Model`, whose package is not part
of the sources, with the four fields `Save` fills; `M` is the metadata document. -/
structure Model (M : Type) where
  Metadata : M
  Path : Path
  Config : List Nat
  Content : List Nat

/-- The method `defaultSaver.Save(path)` (saver.go, lines 36-61), with the events
of the call.  `parse` is the method `d.Parser.Parse`. -/
def Save {σ M : Type} (P : Encoders σ) (parse : List Nat → Except Err M) (fs : FS)
    (path : Path) : List Event × Except Err (Model M) :=
  let file := Join path ORMBfileName
  -- Save model config from <path>/ormbfile.yaml.
  match fs.readFile file with
  | .error e => ([.readFile file], .error e)
  | .ok dat =>
  match parse dat with
  | .error e => ([.readFile file], .error e)
  | .ok metadata =>
  -- Save the model from <path>/model.
  match Tar P fs (Join path ORMBModelDirectory) ⟨P.empty, [.readFile file]⟩ with
  | (w, some e) => (w.trace, .error e)
  | (w, none) =>
    (w.trace, .ok { Metadata := metadata, Path := path, Config := dat, Content := P.bytes w.enc })

/-! ## The walk as a sequence, and what an entry contributes -/

/-- The arguments `filepath.Walk` gives the walk function at an entry: no
`FileInfo` and the error when `lstat` fails, the `FileInfo` and the listing error
for a directory, the `FileInfo` alone otherwise. -/
def walkArgs (node : Node) : Option FileInfo × Option Err :=
  match lstat node with
  | .error e => (none, some e)
  | .ok info =>
    match node with
    | .dir _ readErr _ => (some info, readErr)
    | _ => (some info, none)

mutual
/-- The entries the recursive walk visits, in walk order, each with its path:
a directory before its names, and nothing below a directory that cannot be
listed. -/
def visits : Path → Node → List (Path × Node)
  | path, .dir attr readErr names =>
    (path, .dir attr readErr names) ::
      (if readErr.isSome then [] else visitsNames path names)
  | path, .regular attr content openErr readFault =>
    [(path, .regular attr content openErr readFault)]
  | path, .symlink attr statErr => [(path, .symlink attr statErr)]
  | path, .special attr socket => [(path, .special attr socket)]
  | path, .missing e => [(path, .missing e)]
/-- The visits below a directory `path` with the given names. -/
def visitsNames : Path → Entries → List (Path × Node)
  | _, .nil => []
  | path, .cons name child rest => visits (Join path name) child ++ visitsNames path rest
end

/-- The walk function called on a sequence of visits in order, up to the first
error it returns. -/
def runVisits {W : Type} (walkFn : WalkFunc W) : List (Path × Node) → W → W × Option Err
  | [], w => (w, none)
  | (file, node) :: rest, w =>
    match walkFn file node (walkArgs node).1 (walkArgs node).2 w with
    | (w1, some e) => (w1, some e)
    | (w1, none) => runVisits walkFn rest w1

/-- The error the file system holds for an entry: the walk's error for it
(`lstat` or the listing of the directory), or the error of opening or reading a
regular file. -/
def fault : Node → Option Err
  | .regular _ _ (some e) _ => some e
  | .regular _ _ none (some (_, e)) => some e
  | .regular _ _ none none => none
  | .dir _ readErr _ => readErr
  | .symlink _ _ => none
  | .special _ _ => none
  | .missing e => some e

/-- The header `Tar` writes for a regular file at `file`. -/
def tarHeader (src file : Path) (attr : Attr) (content : List Nat) : Header :=
  ⟨headerName src file, content.length, attr.perm, attr.modTime⟩

/-- The events of one entry when the encoders accept what they are given:
nothing for an entry that is not a regular file; header, open, copy and close for
a regular file; for a regular file that cannot be opened the header alone, and
for one whose read fails the header, the open and the bytes read so far. -/
def entryEvents (src : Path) : Path × Node → List Event
  | (file, .regular attr content (some _) _) =>
    [.writeHeader (tarHeader src file attr content)]
  | (file, .regular attr content none (some (k, _))) =>
    [.writeHeader (tarHeader src file attr content), .openFile file, .copy (content.take k)]
  | (file, .regular attr content none none) =>
    [.writeHeader (tarHeader src file attr content), .openFile file, .copy content,
      .closeFile file]
  | (_, .dir _ _ _) => []
  | (_, .symlink _ _) => []
  | (_, .special _ _) => []
  | (_, .missing _) => []

/-- A regular file found by the walk. -/
structure RegularFile where
  path : Path
  attr : Attr
  content : List Nat
  deriving DecidableEq

/-- The regular files among the visits, in the same order. -/
def regularFiles : List (Path × Node) → List RegularFile
  | [] => []
  | (file, .regular attr content _ _) :: rest => ⟨file, attr, content⟩ :: regularFiles rest
  | (_, .dir _ _ _) :: rest => regularFiles rest
  | (_, .symlink _ _) :: rest => regularFiles rest
  | (_, .special _ _) :: rest => regularFiles rest
  | (_, .missing _) :: rest => regularFiles rest

/-- The header and the content of the archive entry of a regular file. -/
def RegularFile.entry (src : Path) (f : RegularFile) : Header × List Nat :=
  (tarHeader src f.path f.attr f.content, f.content)

/-- The events of archiving a regular file in full. -/
def RegularFile.events (src : Path) (f : RegularFile) : List Event :=
  [.writeHeader (tarHeader src f.path f.attr f.content), .openFile f.path, .copy f.content,
    .closeFile f.path]

/-- The bytes copied into the tar encoder before the next header. -/
def contentOf : List Event → List Nat
  | [] => []
  | .writeHeader _ :: _ => []
  | .copy data :: rest => data ++ contentOf rest
  | _ :: rest => contentOf rest

/-- The entries written to the tar encoder: each header with the bytes copied
after it. -/
def entries : List Event → List (Header × List Nat)
  | [] => []
  | .writeHeader header :: rest => (header, contentOf rest) :: entries rest
  | _ :: rest => entries rest

/-- The number of read handles open after the events, counted in order: an open
adds one and a close takes one away. -/
def openHandles (evs : List Event) : Nat :=
  evs.foldl (fun n ev =>
    match ev with
    | .openFile _ => n + 1
    | .closeFile _ => n - 1
    | _ => n) 0

/-- An event of the walk: a call on the tar encoder or on a read handle. -/
def Event.isFileEvent : Event → Bool
  | .writeHeader _ => true
  | .openFile _ => true
  | .copy _ => true
  | .closeFile _ => true
  | _ => false

/-- The encoder calls among the events, made in order on the encoders' state up
to the first call that returns an error: a header event is the call
`tw.WriteHeader`, a copy event with bytes is the `tw.Write` of `io.Copy`, and
the other events leave the encoders alone. -/
def feed {σ : Type} (P : Encoders σ) : List Event → σ → σ × Option Err
  | [], s => (s, none)
  | .writeHeader header :: rest, s =>
    match P.writeHeader s header with
    | (s1, some e) => (s1, some e)
    | (s1, none) => feed P rest s1
  | .copy data :: rest, s =>
    if data = [] then feed P rest s
    else
      match P.write s data with
      | (s1, some e) => (s1, some e)
      | (s1, none) => feed P rest s1
  | .readFile _ :: rest, s => feed P rest s
  | .stat _ :: rest, s => feed P rest s
  | .newGzip :: rest, s => feed P rest s
  | .newTar :: rest, s => feed P rest s
  | .openFile _ :: rest, s => feed P rest s
  | .closeFile _ :: rest, s => feed P rest s
  | .closeTar :: rest, s => feed P rest s
  | .closeGzip :: rest, s => feed P rest s

/-- The files on disk after the entries are extracted in order, each at the name
in its header: a later entry replaces an earlier one of the same name. -/
def extract : List (Header × List Nat) → List (Path × List Nat)
  | [] => []
  | (header, content) :: rest =>
    if rest.any (fun e => e.1.Name = header.Name) then extract rest
    else (header.Name, content) :: extract rest

/-! ## Two instances of the encoders -/

/-- A sink reduced to what the claims observe: the bytes it took and the number
of writes it refused. -/
structure SinkState where
  accepted : List Nat
  refused : Nat
  deriving DecidableEq

/-- Encoders over an in-memory buffer, which takes every write.  The tar and
gzip framing is not modelled: the buffer records the content bytes. -/
def accepting : Encoders SinkState where
  empty := ⟨[], 0⟩
  bytes s := s.accepted
  writeHeader s _ := (s, none)
  write s data := (⟨s.accepted ++ data, s.refused⟩, none)
  closeTar s := (s, none)
  closeGzip s := (s, none)

/-- The encoders once the sink has refused a write: the gzip encoder keeps the
error and every later call returns it without reaching the sink. -/
def refuse (s : SinkState) : SinkState × Option Err :=
  (⟨s.accepted, if s.refused = 0 then 1 else s.refused⟩, some "sink: write refused")

/-- Encoders over a sink that refuses every write.  The first call that has
bytes for the gzip encoder makes it send the gzip header to the sink, which
refuses it; `tw.Close()` is such a call, since it writes the tar trailer. -/
def refusing : Encoders SinkState where
  empty := ⟨[], 0⟩
  bytes s := s.accepted
  writeHeader s _ := refuse s
  write s _ := refuse s
  closeTar s := refuse s
  closeGzip s := refuse s

/-- A snapshot with `<dir>/ormbfile.yaml` holding `yaml` and `node` at
`<dir>/model`. -/
def modelDir (yaml : List Nat) (node : Node) : FS where
  readFile _ := .ok yaml
  lookup _ := node

/-! ## Snapshots used as concrete inputs -/

/-- A content directory with a subdirectory, a symbolic link and the regular
file `weights.bin` of three bytes. -/
def exampleTree : Node :=
  .dir ⟨493, 0⟩ none
    (.cons "sub".toList (.dir ⟨493, 0⟩ none .nil)
      (.cons "link".toList (.symlink ⟨511, 0⟩ none)
        (.cons "weights.bin".toList (.regular ⟨420, 7⟩ [1, 2, 3] none none) .nil)))

/-- A content directory whose second file, `b.bin`, cannot be opened. -/
def unreadableTree : Node :=
  .dir ⟨493, 0⟩ none
    (.cons "a.bin".toList (.regular ⟨420, 7⟩ [1, 2] none none)
      (.cons "b.bin".toList (.regular ⟨0, 7⟩ [3, 4] (some "permission denied") none)
        (.cons "c.bin".toList (.regular ⟨420, 7⟩ [5, 6] none none) .nil)))

/-- A content directory with the one file `weights.bin`, whose read fails after
the first of its three bytes. -/
def readFaultTree : Node :=
  .dir ⟨493, 0⟩ none
    (.cons "weights.bin".toList
      (.regular ⟨420, 7⟩ [1, 2, 3] none (some (1, "input/output error"))) .nil)

/-- A content directory with the two files `a.b` and `ab`. -/
def collidingTree : Node :=
  .dir ⟨493, 0⟩ none
    (.cons "a.b".toList (.regular ⟨420, 7⟩ [1, 2] none none)
      (.cons "ab".toList (.regular ⟨420, 7⟩ [3, 4] none none) .nil))

/-- An empty content directory. -/
def emptyTree : Node :=
  .dir ⟨493, 0⟩ none .nil

/-- A path at which nothing exists. -/
def absentNode : Node :=
  .missing "no such file or directory"

/-- A snapshot without `ormbfile.yaml`. -/
def noMetadata (node : Node) : FS where
  readFile _ := .error "no such file or directory"
  lookup _ := node

/-- A parser that accepts every document and returns its bytes. -/
def rawParser : List Nat → Except Err (List Nat) :=
  fun dat => .ok dat

/-! ## The walk is the sequence of its visits -/

theorem runVisits_append {W : Type} (walkFn : WalkFunc W) (xs ys : List (Path × Node)) (w : W) :
    runVisits walkFn (xs ++ ys) w =
      match runVisits walkFn xs w with
      | (w1, some e) => (w1, some e)
      | (w1, none) => runVisits walkFn ys w1 := by
  induction xs generalizing w with
  | nil => simp [runVisits]
  | cons x xs ih =>
    obtain ⟨file, node⟩ := x
    simp only [List.cons_append, runVisits]
    rcases walkFn file node (walkArgs node).1 (walkArgs node).2 w with ⟨w1, _ | e⟩
    · simpa using ih w1
    · simp

mutual
theorem walk_eq_runVisits {W : Type} (walkFn : WalkFunc W) (path : Path) (node : Node)
    (info : FileInfo) (hinfo : lstat node = .ok info) (w : W) :
    walk walkFn path node info w = runVisits walkFn (visits path node) w := by
  cases node with
  | dir attr readErr names =>
    simp only [lstat, Except.ok.injEq] at hinfo
    subst hinfo
    simp only [walk, visits, runVisits, walkArgs, lstat]
    rcases hfn : walkFn path (.dir attr readErr names) (some ⟨Kind.dir, 0, attr⟩) readErr w
      with ⟨w1, _ | e⟩
    · cases readErr with
      | none => simpa using walkNames_eq_runVisits walkFn path names w1
      | some e0 => simp [runVisits]
    · simp
  | regular attr content openErr readFault =>
    simp only [lstat, Except.ok.injEq] at hinfo
    subst hinfo
    simp only [walk, visits, runVisits, walkArgs, lstat]
    rcases walkFn path (.regular attr content openErr readFault) _ none w with ⟨w1, _ | e⟩ <;> rfl
  | symlink attr statErr =>
    simp only [lstat, Except.ok.injEq] at hinfo
    subst hinfo
    simp only [walk, visits, runVisits, walkArgs, lstat]
    rcases walkFn path (.symlink attr statErr) _ none w with ⟨w1, _ | e⟩ <;> rfl
  | special attr socket =>
    simp only [lstat, Except.ok.injEq] at hinfo
    subst hinfo
    simp only [walk, visits, runVisits, walkArgs, lstat]
    rcases walkFn path (.special attr socket) _ none w with ⟨w1, _ | e⟩ <;> rfl
  | missing e => simp [lstat] at hinfo
theorem walkNames_eq_runVisits {W : Type} (walkFn : WalkFunc W) (path : Path)
    (names : Entries) (w : W) :
    walkNames walkFn path names w = runVisits walkFn (visitsNames path names) w := by
  cases names with
  | nil => simp [walkNames, visitsNames, runVisits]
  | cons name child rest =>
    simp only [walkNames, visitsNames, runVisits_append]
    cases hl : lstat child with
    | error e =>
      have hc : child = .missing e := by
        cases child <;> simp_all [lstat]
      subst hc
      simp only [visits, runVisits, walkArgs, lstat]
      rcases walkFn (Join path name) (.missing e) none (some e) w with ⟨w1, _ | e1⟩
      · simpa using walkNames_eq_runVisits walkFn path rest w1
      · simp
    | ok fileInfo =>
      simp only []
      rw [walk_eq_runVisits walkFn (Join path name) child fileInfo hl w]
      rcases runVisits walkFn (visits (Join path name) child) w with ⟨w1, _ | e1⟩
      · simpa using walkNames_eq_runVisits walkFn path rest w1
      · simp
end

theorem Walk_eq_runVisits {W : Type} (walkFn : WalkFunc W) (root : Path) (node : Node) (w : W) :
    Walk root node walkFn w = runVisits walkFn (visits root node) w := by
  unfold Walk
  cases hl : lstat node with
  | error e =>
    have hc : node = .missing e := by
      cases node <;> simp_all [lstat]
    subst hc
    simp only [visits, runVisits, walkArgs, lstat]
    rcases walkFn root (.missing e) none (some e) w with ⟨w1, _ | e1⟩ <;> rfl
  | ok info => exact walk_eq_runVisits walkFn root node info hl w

/-! ## One call of the walk function -/

/-- What one call of the walk function of `Tar` does at an entry: the events it
adds are a prefix of the entry's events; they are all of them, and the entry has
no fault, when the call returns no error. -/
theorem tarWalkFn_step {σ : Type} (P : Encoders σ) (src file : Path) (node : Node)
    (w : World σ) :
    ∃ evs, (tarWalkFn P src file node (walkArgs node).1 (walkArgs node).2 w).1.trace
        = w.trace ++ evs ∧
      evs <+: entryEvents src (file, node) ∧
      ((tarWalkFn P src file node (walkArgs node).1 (walkArgs node).2 w).2 = none →
        evs = entryEvents src (file, node) ∧ fault node = none) := by
  cases node with
  | dir attr readErr names =>
    refine ⟨[], ?_⟩
    cases readErr <;>
      simp [tarWalkFn, walkArgs, lstat, entryEvents, fault, FileInfo.IsRegular]
  | symlink attr statErr =>
    refine ⟨[], ?_⟩
    simp [tarWalkFn, walkArgs, lstat, entryEvents, fault, FileInfo.IsRegular]
  | special attr socket =>
    refine ⟨[], ?_⟩
    cases socket <;>
      simp [tarWalkFn, walkArgs, lstat, entryEvents, fault, FileInfo.IsRegular]
  | missing e =>
    refine ⟨[], ?_⟩
    simp [tarWalkFn, walkArgs, lstat, entryEvents, fault]
  | regular attr content openErr readFault =>
    have hhdr : (⟨TrimPrefix (ReplaceAll file (Dir src) []) [Separator],
        content.length, attr.perm, attr.modTime⟩ : Header)
        = tarHeader src file attr content := rfl
    simp only [tarWalkFn, walkArgs, lstat, FileInfo.IsRegular, FileInfoHeader,
      decide_True, Bool.not_true, Bool.false_eq_true, if_false, hhdr]
    rcases hwh : P.writeHeader w.enc (tarHeader src file attr content) with ⟨enc1, _ | e1⟩
    · -- the header was accepted
      cases openErr with
      | some eo =>
        refine ⟨[.writeHeader (tarHeader src file attr content)], ?_⟩
        simp [osOpen, entryEvents, fault]
      | none =>
        cases readFault with
        | some kf =>
          obtain ⟨k, ef⟩ := kf
          simp only [osOpen, World.log, ioCopy]
          by_cases hd : List.take k content = []
          · refine ⟨[.writeHeader (tarHeader src file attr content), .openFile file,
              .copy (content.take k)], ?_⟩
            simp [hd, entryEvents, fault]
          · simp only [hd, if_false]
            rcases hwr : P.write enc1 (List.take k content) with ⟨enc2, _ | e2⟩
            · refine ⟨[.writeHeader (tarHeader src file attr content), .openFile file,
                .copy (content.take k)], ?_⟩
              simp [entryEvents, fault]
            · refine ⟨[.writeHeader (tarHeader src file attr content), .openFile file,
                .copy (content.take k)], ?_⟩
              simp [entryEvents]
        | none =>
          simp only [osOpen, World.log, ioCopy]
          by_cases hd : content = []
          · refine ⟨[.writeHeader (tarHeader src file attr content), .openFile file,
              .copy content, .closeFile file], ?_⟩
            simp [hd, entryEvents, fault]
          · simp only [hd, if_false]
            rcases hwr : P.write enc1 content with ⟨enc2, _ | e2⟩
            · refine ⟨[.writeHeader (tarHeader src file attr content), .openFile file,
                .copy content, .closeFile file], ?_⟩
              simp [entryEvents, fault]
            · refine ⟨[.writeHeader (tarHeader src file attr content), .openFile file,
                .copy content], ?_⟩
              have hpre : [Event.writeHeader (tarHeader src file attr content),
                  Event.openFile file, Event.copy content] <+:
                  [Event.writeHeader (tarHeader src file attr content), Event.openFile file,
                    Event.copy content, Event.closeFile file] := ⟨[.closeFile file], rfl⟩
              simp [entryEvents, hpre]
    · -- the header was refused
      refine ⟨[.writeHeader (tarHeader src file attr content)], ?_⟩
      have hpre : [Event.writeHeader (tarHeader src file attr content)] <+:
          entryEvents src (file, Node.regular attr content openErr readFault) := by
        cases openErr with
        | some eo => simp [entryEvents]
        | none =>
          cases readFault with
          | some kf => exact ⟨_, rfl⟩
          | none => exact ⟨_, rfl⟩
      simp [hpre]

/-! ## The walk function over the sequence of visits -/

theorem runVisits_prefix {σ : Type} (P : Encoders σ) (src : Path) (vs : List (Path × Node))
    (w : World σ) :
    ∃ evs, (runVisits (tarWalkFn P src) vs w).1.trace = w.trace ++ evs ∧
      evs <+: vs.flatMap (entryEvents src) := by
  induction vs generalizing w with
  | nil => exact ⟨[], by simp [runVisits]⟩
  | cons v vs ih =>
    obtain ⟨file, node⟩ := v
    obtain ⟨evs, htr, hpre, hnone⟩ := tarWalkFn_step P src file node w
    simp only [runVisits, List.flatMap_cons]
    rcases hstep : tarWalkFn P src file node (walkArgs node).1 (walkArgs node).2 w
      with ⟨w1, _ | e⟩
    · rw [hstep] at htr hnone
      obtain ⟨evs2, htr2, hpre2⟩ := ih w1
      refine ⟨evs ++ evs2, ?_, ?_⟩
      · simp only [htr2]
        simp only [] at htr
        rw [htr, List.append_assoc]
      · rw [(hnone rfl).1]
        exact (List.prefix_append_right_inj _).2 hpre2
    · rw [hstep] at htr
      exact ⟨evs, htr, hpre.trans (List.prefix_append _ _)⟩

theorem runVisits_success {σ : Type} (P : Encoders σ) (src : Path) (vs : List (Path × Node))
    (w : World σ) (h : (runVisits (tarWalkFn P src) vs w).2 = none) :
    (runVisits (tarWalkFn P src) vs w).1.trace = w.trace ++ vs.flatMap (entryEvents src) ∧
      ∀ v ∈ vs, fault v.2 = none := by
  induction vs generalizing w with
  | nil => simp [runVisits]
  | cons v vs ih =>
    obtain ⟨file, node⟩ := v
    obtain ⟨evs, htr, -, hnone⟩ := tarWalkFn_step P src file node w
    simp only [runVisits, List.flatMap_cons] at h ⊢
    rcases hstep : tarWalkFn P src file node (walkArgs node).1 (walkArgs node).2 w
      with ⟨w1, _ | e⟩
    · rw [hstep] at htr hnone h
      simp only [] at htr h
      obtain ⟨htr2, hf2⟩ := ih w1 h
      obtain ⟨hevs, hf⟩ := hnone rfl
      refine ⟨?_, ?_⟩
      · simp only [htr2, htr, hevs, List.append_assoc]
      · intro v hv
        rcases List.mem_cons.1 hv with rfl | hv
        · exact hf
        · exact hf2 v hv
    · rw [hstep] at h
      simp at h

theorem runVisits_stops {σ : Type} (P : Encoders σ) (src : Path)
    (pre : List (Path × Node)) (v : Path × Node) (post : List (Path × Node)) (w : World σ)
    (hv : fault v.2 ≠ none) :
    runVisits (tarWalkFn P src) (pre ++ v :: post) w
        = runVisits (tarWalkFn P src) (pre ++ [v]) w ∧
      (runVisits (tarWalkFn P src) (pre ++ v :: post) w).2 ≠ none := by
  induction pre generalizing w with
  | nil =>
    obtain ⟨file, node⟩ := v
    obtain ⟨evs, -, -, hnone⟩ := tarWalkFn_step P src file node w
    simp only [List.nil_append, runVisits]
    rcases hstep : tarWalkFn P src file node (walkArgs node).1 (walkArgs node).2 w
      with ⟨w1, _ | e⟩
    · rw [hstep] at hnone
      exact absurd (hnone rfl).2 hv
    · simp
  | cons u pre ih =>
    obtain ⟨file, node⟩ := u
    simp only [List.cons_append, runVisits]
    rcases tarWalkFn P src file node (walkArgs node).1 (walkArgs node).2 w with ⟨w1, _ | e⟩
    · exact ih w1
    · simp

/-! ## The encoder calls of a run -/

theorem feed_append {σ : Type} (P : Encoders σ) (xs ys : List Event) (s : σ) :
    feed P (xs ++ ys) s =
      match feed P xs s with
      | (s1, some e) => (s1, some e)
      | (s1, none) => feed P ys s1 := by
  induction xs generalizing s with
  | nil => simp [feed]
  | cons x xs ih =>
    cases x with
    | writeHeader header =>
      simp only [List.cons_append, feed]
      rcases P.writeHeader s header with ⟨s1, _ | e⟩
      · simpa using ih s1
      · simp
    | copy data =>
      simp only [List.cons_append, feed]
      by_cases hd : data = []
      · simpa [hd] using ih s
      · simp only [hd, if_false]
        rcases P.write s data with ⟨s1, _ | e⟩
        · simpa using ih s1
        · simp
    | readFile p => simpa [feed] using ih s
    | stat p => simpa [feed] using ih s
    | newGzip => simpa [feed] using ih s
    | newTar => simpa [feed] using ih s
    | openFile p => simpa [feed] using ih s
    | closeFile p => simpa [feed] using ih s
    | closeTar => simpa [feed] using ih s
    | closeGzip => simpa [feed] using ih s

/-- One call of the walk function of `Tar` against the encoder calls of the
entry's events: the encoders end in the same state, the error returned is the
first error of those calls and, when they all succeed, the entry's fault, and
in that case the events added are all of the entry's events. -/
theorem tarWalkFn_feed {σ : Type} (P : Encoders σ) (src file : Path) (node : Node)
    (w : World σ) :
    (tarWalkFn P src file node (walkArgs node).1 (walkArgs node).2 w).1.enc
        = (feed P (entryEvents src (file, node)) w.enc).1 ∧
      (tarWalkFn P src file node (walkArgs node).1 (walkArgs node).2 w).2
        = ((feed P (entryEvents src (file, node)) w.enc).2).or (fault node) ∧
      ((feed P (entryEvents src (file, node)) w.enc).2 = none →
        (tarWalkFn P src file node (walkArgs node).1 (walkArgs node).2 w).1.trace
          = w.trace ++ entryEvents src (file, node)) := by
  cases node with
  | dir attr readErr names =>
    cases readErr <;>
      simp [tarWalkFn, walkArgs, lstat, entryEvents, fault, FileInfo.IsRegular, feed]
  | symlink attr statErr =>
    simp [tarWalkFn, walkArgs, lstat, entryEvents, fault, FileInfo.IsRegular, feed]
  | special attr socket =>
    cases socket <;>
      simp [tarWalkFn, walkArgs, lstat, entryEvents, fault, FileInfo.IsRegular, feed]
  | missing e =>
    simp [tarWalkFn, walkArgs, lstat, entryEvents, fault, feed]
  | regular attr content openErr readFault =>
    have hhdr : (⟨TrimPrefix (ReplaceAll file (Dir src) []) [Separator],
        content.length, attr.perm, attr.modTime⟩ : Header)
        = tarHeader src file attr content := rfl
    simp only [tarWalkFn, walkArgs, lstat, FileInfo.IsRegular, FileInfoHeader,
      decide_True, Bool.not_true, Bool.false_eq_true, if_false, hhdr]
    rcases hwh : P.writeHeader w.enc (tarHeader src file attr content) with ⟨enc1, _ | e1⟩
    · cases openErr with
      | some eo => simp [osOpen, entryEvents, fault, feed, hwh]
      | none =>
        cases readFault with
        | some kf =>
          obtain ⟨k, ef⟩ := kf
          simp only [osOpen, World.log, ioCopy]
          by_cases hd : List.take k content = []
          · simp [hd, entryEvents, fault, feed, hwh]
          · simp only [hd, if_false]
            rcases hwr : P.write enc1 (List.take k content) with ⟨enc2, _ | e2⟩
            · simp [hd, entryEvents, fault, feed, hwh, hwr]
            · simp [hd, entryEvents, fault, feed, hwh, hwr]
        | none =>
          simp only [osOpen, World.log, ioCopy]
          by_cases hd : content = []
          · subst hd
            simp [entryEvents, fault, feed, hwh]
          · simp only [hd, if_false]
            rcases hwr : P.write enc1 content with ⟨enc2, _ | e2⟩
            · simp [hd, entryEvents, fault, feed, hwh, hwr]
            · simp [hd, entryEvents, fault, feed, hwh, hwr]
    · cases openErr with
      | some eo => simp [entryEvents, fault, feed, hwh]
      | none =>
        cases readFault with
        | some kf =>
          obtain ⟨k, ef⟩ := kf
          simp [entryEvents, fault, feed, hwh]
        | none => simp [entryEvents, fault, feed, hwh]

/-- The walk function of `Tar` over entries without a fault, against the encoder
calls of their events. -/
theorem runVisits_feed {σ : Type} (P : Encoders σ) (src : Path) (us : List (Path × Node))
    (w : World σ) (hus : ∀ u ∈ us, fault u.2 = none) :
    (runVisits (tarWalkFn P src) us w).1.enc
        = (feed P (us.flatMap (entryEvents src)) w.enc).1 ∧
      (runVisits (tarWalkFn P src) us w).2
        = (feed P (us.flatMap (entryEvents src)) w.enc).2 ∧
      ((feed P (us.flatMap (entryEvents src)) w.enc).2 = none →
        (runVisits (tarWalkFn P src) us w).1.trace
          = w.trace ++ us.flatMap (entryEvents src)) := by
  induction us generalizing w with
  | nil => simp [runVisits, feed]
  | cons u us ih =>
    obtain ⟨file, node⟩ := u
    have hf : fault node = none := hus (file, node) (List.mem_cons_self _ _)
    obtain ⟨henc, herr, htr⟩ := tarWalkFn_feed P src file node w
    rw [hf] at herr
    simp only [runVisits, List.flatMap_cons, feed_append]
    rcases hstep : tarWalkFn P src file node (walkArgs node).1 (walkArgs node).2 w
      with ⟨w1, _ | e1⟩
    · rw [hstep] at henc herr htr
      simp only [Option.or_none] at herr
      rcases hfd : feed P (entryEvents src (file, node)) w.enc with ⟨s1, _ | r⟩
      · rw [hfd] at henc htr
        simp only [] at henc htr
        obtain ⟨h1, h2, h3⟩ := ih w1 (fun u hu => hus u (List.mem_cons_of_mem _ hu))
        rw [henc] at h1 h2 h3
        refine ⟨h1, h2, ?_⟩
        intro hnone
        rw [h3 hnone, htr trivial, List.append_assoc]
      · rw [hfd] at herr
        simp at herr
    · rw [hstep] at henc herr
      simp only [Option.or_none] at herr
      rcases hfd : feed P (entryEvents src (file, node)) w.enc with ⟨s1, _ | r⟩
      · rw [hfd] at herr
        simp at herr
      · rw [hfd] at henc herr
        simp only [] at henc herr
        simp [henc, herr]

/-- The walk function of `Tar` over entries without a fault followed by an entry
with the fault `e`: the error is the first error of the encoder calls and, when
they all succeed, `e`; in that case the events are all of the entries' events. -/
theorem runVisits_first_fault {σ : Type} (P : Encoders σ) (src : Path)
    (pre : List (Path × Node)) (v : Path × Node) (w : World σ) (e : Err)
    (hpre : ∀ u ∈ pre, fault u.2 = none) (hv : fault v.2 = some e) :
    (runVisits (tarWalkFn P src) (pre ++ [v]) w).2
        = ((feed P ((pre ++ [v]).flatMap (entryEvents src)) w.enc).2).or (some e) ∧
      ((feed P ((pre ++ [v]).flatMap (entryEvents src)) w.enc).2 = none →
        (runVisits (tarWalkFn P src) (pre ++ [v]) w).1.trace
          = w.trace ++ (pre ++ [v]).flatMap (entryEvents src)) := by
  obtain ⟨h1, h2, h3⟩ := runVisits_feed P src pre w hpre
  obtain ⟨file, node⟩ := v
  simp only [] at hv
  simp only [runVisits_append, List.flatMap_append, List.flatMap_cons, List.flatMap_nil,
    List.append_nil, feed_append, runVisits]
  rcases hrun : runVisits (tarWalkFn P src) pre w with ⟨w1, _ | e1⟩
  · rw [hrun] at h1 h2 h3
    simp only [] at h1 h2 h3
    rcases hfd : feed P (pre.flatMap (entryEvents src)) w.enc with ⟨s1, _ | r⟩
    · rw [hfd] at h1 h3
      simp only [] at h1 h3
      obtain ⟨henc, herr, htr⟩ := tarWalkFn_feed P src file node w1
      rw [hv, h1] at herr
      rw [h1] at henc htr
      simp only []
      rcases hstep : tarWalkFn P src file node (walkArgs node).1 (walkArgs node).2 w1
        with ⟨w2, _ | e2⟩
      · rw [hstep] at herr
        rcases hfd2 : feed P (entryEvents src (file, node)) s1 with ⟨s2, _ | r2⟩ <;>
          rw [hfd2] at herr <;> simp at herr
      · rw [hstep] at herr htr
        simp only [] at herr htr
        refine ⟨herr, ?_⟩
        intro hnone
        rw [htr hnone, h3 trivial, List.append_assoc]
    · rw [hfd] at h2
      simp at h2
  · rw [hrun] at h2
    simp only [] at h2
    rcases hfd : feed P (pre.flatMap (entryEvents src)) w.enc with ⟨s1, _ | r⟩
    · rw [hfd] at h2
      simp at h2
    · rw [hfd] at h2
      simp only [] at h2
      simp [h2]

/-! ## Events and entries -/

theorem entryEvents_isFileEvent (src : Path) (v : Path × Node) :
    ∀ ev ∈ entryEvents src v, ev.isFileEvent = true := by
  obtain ⟨file, node⟩ := v
  cases node with
  | regular attr content openErr readFault =>
    cases openErr with
    | some eo => simp [entryEvents, Event.isFileEvent]
    | none =>
      cases readFault with
      | some kf => simp [entryEvents, Event.isFileEvent]
      | none => simp [entryEvents, Event.isFileEvent]
  | dir attr readErr names => simp [entryEvents]
  | symlink attr statErr => simp [entryEvents]
  | special attr socket => simp [entryEvents]
  | missing e => simp [entryEvents]

theorem flatMap_entryEvents_isFileEvent (src : Path) (vs : List (Path × Node)) :
    ∀ ev ∈ vs.flatMap (entryEvents src), ev.isFileEvent = true := by
  intro ev hev
  obtain ⟨v, -, hv⟩ := List.mem_flatMap.1 hev
  exact entryEvents_isFileEvent src v ev hv

theorem flatMap_entryEvents_of_no_fault (src : Path) (vs : List (Path × Node))
    (hvs : ∀ u ∈ vs, fault u.2 = none) :
    vs.flatMap (entryEvents src) = (regularFiles vs).flatMap (RegularFile.events src) := by
  induction vs with
  | nil => simp [regularFiles]
  | cons v vs ih =>
    have ih2 := ih (fun u hu => hvs u (List.mem_cons_of_mem _ hu))
    have hf := hvs v (List.mem_cons_self _ _)
    obtain ⟨file, node⟩ := v
    cases node with
    | regular attr content openErr readFault =>
      cases openErr with
      | some eo => simp [fault] at hf
      | none =>
        cases readFault with
        | some kf => simp [fault] at hf
        | none =>
          simp [regularFiles, entryEvents, RegularFile.events, ih2]
    | dir attr readErr names => simp [regularFiles, entryEvents, ih2]
    | symlink attr statErr => simp [regularFiles, entryEvents, ih2]
    | special attr socket => simp [regularFiles, entryEvents, ih2]
    | missing e => simp [regularFiles, entryEvents, ih2]

theorem entries_fileEvents (src : Path) (fs : List RegularFile) (tail : List Event)
    (htail : entries tail = []) (hc : contentOf tail = []) :
    entries (fs.flatMap (RegularFile.events src) ++ tail) = fs.map (RegularFile.entry src) := by
  induction fs with
  | nil => simpa using htail
  | cons f fs ih =>
    simp only [List.flatMap_cons, List.map_cons, RegularFile.events, List.cons_append,
      List.nil_append, entries, contentOf, ih, RegularFile.entry]
    congr 2
    cases fs with
    | nil => simp [hc]
    | cons g gs => simp [RegularFile.events, contentOf]

/-! ## The name rewriting -/

theorem replaceScan_skip (old new : List Char) (xs t : List Char) :
    replaceScan old new xs.length (xs ++ t) = replaceScan old new 0 t := by
  induction xs with
  | nil => simp
  | cons x xs ih => simpa [replaceScan] using ih

theorem countScan_skip (old : List Char) (xs t : List Char) :
    countScan old xs.length (xs ++ t) = countScan old 0 t := by
  induction xs with
  | nil => simp
  | cons x xs ih => simpa [countScan] using ih

theorem replaceScan_of_countScan_eq_zero (old : List Char) (s : List Char)
    (h : countScan old 0 s = 0) : replaceScan old [] 0 s = s := by
  induction s with
  | nil => simp [replaceScan]
  | cons c cs ih =>
    by_cases hp : old.isPrefixOf (c :: cs) = true
    · simp [countScan, hp] at h
    · simp only [countScan, hp, if_false, Bool.false_eq_true] at h
      simp [replaceScan, hp, ih h]

theorem ReplaceAll_prefix_once (old t : List Char) (hne : old ≠ [])
    (hc : Count (old ++ t) old = 1) : ReplaceAll (old ++ t) old [] = t := by
  obtain ⟨o, os, rfl⟩ := List.exists_cons_of_ne_nil hne
  have hp : (o :: os).isPrefixOf (o :: (os ++ t)) = true := by
    rw [List.isPrefixOf_iff_prefix]
    exact ⟨t, rfl⟩
  have h1 : countScan (o :: os) 0 (o :: (os ++ t)) = countScan (o :: os) 0 t + 1 := by
    rw [countScan, if_pos hp, List.length_cons, Nat.add_sub_cancel, countScan_skip]
  have h2 : replaceScan (o :: os) [] 0 (o :: (os ++ t)) = replaceScan (o :: os) [] 0 t := by
    rw [replaceScan, if_pos hp, List.length_cons, Nat.add_sub_cancel, replaceScan_skip,
      List.nil_append]
  have hc0 : countScan (o :: os) 0 t = 0 := by
    have : Count (o :: (os ++ t)) (o :: os) = 1 := hc
    rw [Count, if_neg (List.cons_ne_nil _ _), h1] at this
    omega
  show ReplaceAll (o :: (os ++ t)) (o :: os) [] = t
  rw [ReplaceAll, if_neg (List.cons_ne_nil _ _), if_neg (List.cons_ne_nil _ _), h2]
  exact replaceScan_of_countScan_eq_zero _ _ hc0

theorem TrimPrefix_separator (rest : List Char) :
    TrimPrefix (Separator :: rest) [Separator] = rest := by
  simp [TrimPrefix, List.isPrefixOf]

/-! ## Cleaned paths -/

theorem splitSep_ne_nil (s : List Char) : splitSep s ≠ [] := by
  induction s with
  | nil => simp [splitSep]
  | cons c cs ih =>
    simp only [splitSep]
    split
    · simp
    · split <;> simp

theorem splitSep_sepFree (s : List Char) : ∀ x ∈ splitSep s, Separator ∉ x := by
  induction s with
  | nil => simp [splitSep]
  | cons c cs ih =>
    simp only [splitSep]
    split
    · intro x hx
      rcases List.mem_cons.1 hx with rfl | hx
      · simp
      · exact ih x hx
    · rename_i hc
      split
      · simp [Ne.symm hc]
      · rename_i y ys hys
        intro x hx
        rw [hys] at ih
        rcases List.mem_cons.1 hx with rfl | hx
        · have := ih y (List.mem_cons_self _ _)
          simp [Ne.symm hc, this]
        · exact ih x (List.mem_cons_of_mem _ hx)

theorem splitSep_of_sepFree (x : List Char) (hx : Separator ∉ x) : splitSep x = [x] := by
  induction x with
  | nil => rfl
  | cons c cs ih =>
    have hc : c ≠ Separator := fun h => hx (by simp [h])
    have hcs : Separator ∉ cs := fun h => hx (List.mem_cons_of_mem _ h)
    simp [splitSep, hc, ih hcs]

theorem splitSep_append_sep (x t : List Char) (hx : Separator ∉ x) :
    splitSep (x ++ Separator :: t) = x :: splitSep t := by
  induction x with
  | nil => simp [splitSep]
  | cons c cs ih =>
    have hc : c ≠ Separator := fun h => hx (by simp [h])
    have hcs : Separator ∉ cs := fun h => hx (List.mem_cons_of_mem _ h)
    simp [splitSep, hc, ih hcs]

theorem splitSep_joinSep (xs : List (List Char)) (hne : xs ≠ [])
    (hxs : ∀ x ∈ xs, Separator ∉ x) : splitSep (joinSep xs) = xs := by
  induction xs with
  | nil => exact absurd rfl hne
  | cons x rest ih =>
    cases rest with
    | nil => exact splitSep_of_sepFree x (hxs x (List.mem_cons_self _ _))
    | cons y rest =>
      simp only [joinSep]
      rw [splitSep_append_sep _ _ (hxs x (List.mem_cons_self _ _)),
        ih (List.cons_ne_nil _ _) (fun z hz => hxs z (List.mem_cons_of_mem _ hz))]

theorem joinSep_concat (xs : List (List Char)) (y : List Char) (hne : xs ≠ []) :
    joinSep (xs ++ [y]) = joinSep xs ++ Separator :: y := by
  induction xs with
  | nil => exact absurd rfl hne
  | cons x rest ih =>
    cases rest with
    | nil => simp [joinSep]
    | cons z rest =>
      have h : joinSep (z :: (rest ++ [y])) = joinSep (z :: rest) ++ Separator :: y :=
        ih (List.cons_ne_nil _ _)
      show joinSep (x :: z :: (rest ++ [y])) = joinSep (x :: z :: rest) ++ Separator :: y
      simp only [joinSep, h, List.append_assoc, List.cons_append]


theorem cleanStep_cleanStack (rooted : Bool) (stack : List (List Char)) (comp : List Char)
    (hs : CleanStack rooted stack) (hc : Separator ∉ comp) :
    CleanStack rooted (cleanStep rooted stack comp) := by
  unfold cleanStep
  split
  · exact hs
  · rename_i h1
    simp only [not_or] at h1
    split
    · rename_i h2
      cases stack with
      | nil =>
        cases rooted with
        | true => simp [CleanStack]
        | false => simp [CleanStack, h2, Separator]
      | cons top rest =>
        simp only []
        split
        · rename_i h3
          subst h3
          refine ⟨hs, h1.1, h1.2, hc, fun _ => ⟨(hs.2.2.2.2 rfl).1, ?_⟩⟩
          intro x hx
          rcases List.mem_cons.1 hx with rfl | hx
          · rfl
          · exact (hs.2.2.2.2 rfl).2 x hx
        · exact hs.1
    · rename_i h2
      exact ⟨hs, h1.1, h1.2, hc, fun h => absurd h h2⟩

theorem foldl_cleanStep_cleanStack (rooted : Bool) (comps : List (List Char))
    (stack : List (List Char)) (hs : CleanStack rooted stack)
    (hc : ∀ x ∈ comps, Separator ∉ x) :
    CleanStack rooted (comps.foldl (cleanStep rooted) stack) := by
  induction comps generalizing stack with
  | nil => exact hs
  | cons c cs ih =>
    exact ih _ (cleanStep_cleanStack rooted stack c hs (hc c (List.mem_cons_self _ _)))
      (fun x hx => hc x (List.mem_cons_of_mem _ hx))

theorem CleanStack_suffix (rooted : Bool) (a b : List (List Char))
    (h : CleanStack rooted (a ++ b)) : CleanStack rooted b := by
  induction a with
  | nil => exact h
  | cons x a ih => exact ih h.1

theorem cleanStep_of_cleanStack (rooted : Bool) (stack : List (List Char)) (comp : List Char)
    (h : CleanStack rooted (comp :: stack)) : cleanStep rooted stack comp = comp :: stack := by
  obtain ⟨-, h1, h2, -, h4⟩ := h
  unfold cleanStep
  rw [if_neg (by simp [h1, h2])]
  split
  · rename_i h3
    obtain ⟨hr, hall⟩ := h4 h3
    cases stack with
    | nil => simp [hr]
    | cons top rest => simp [hall top (List.mem_cons_self _ _)]
  · rfl

theorem foldl_cleanStep_of_cleanStack (rooted : Bool) (els stack : List (List Char))
    (h : CleanStack rooted (els.reverse ++ stack)) :
    els.foldl (cleanStep rooted) stack = els.reverse ++ stack := by
  induction els generalizing stack with
  | nil => rfl
  | cons c cs ih =>
    have h2 : CleanStack rooted (cs.reverse ++ c :: stack) := by
      simpa using h
    rw [List.foldl_cons, cleanStep_of_cleanStack rooted stack c (CleanStack_suffix _ _ _ h2),
      ih _ h2]
    simp

theorem CleanStack_sepFree (rooted : Bool) (stack : List (List Char))
    (h : CleanStack rooted stack) : ∀ x ∈ stack, Separator ∉ x := by
  induction stack with
  | nil => simp
  | cons top rest ih =>
    intro x hx
    rcases List.mem_cons.1 hx with rfl | hx
    · exact h.2.2.2.1
    · exact ih h.1 x hx

theorem dropWhile_ne_sep_of_sepFree (last t : List Char) (h : Separator ∉ last) :
    (last ++ Separator :: t).dropWhile (fun c => c != Separator) = Separator :: t := by
  induction last with
  | nil => simp [List.dropWhile]
  | cons c cs ih =>
    have hc : c ≠ Separator := fun hc => h (by simp [hc])
    have hcs : Separator ∉ cs := fun hm => h (List.mem_cons_of_mem _ hm)
    have hb : (c != Separator) = true := by simp [hc]
    simp [List.dropWhile, hb, ih hcs]

theorem dropWhile_ne_sep_all (last : List Char) (h : Separator ∉ last) :
    last.dropWhile (fun c => c != Separator) = [] := by
  induction last with
  | nil => rfl
  | cons c cs ih =>
    have hc : c ≠ Separator := fun hc => h (by simp [hc])
    have hcs : Separator ∉ cs := fun hm => h (List.mem_cons_of_mem _ hm)
    have hb : (c != Separator) = true := by simp [hc]
    simp [List.dropWhile, hb, ih hcs]

theorem takeWhile_ne_sep_of_sepFree (last t : List Char) (h : Separator ∉ last) :
    (last ++ Separator :: t).takeWhile (fun c => c != Separator) = last := by
  induction last with
  | nil => simp [List.takeWhile]
  | cons c cs ih =>
    have hc : c ≠ Separator := fun hc => h (by simp [hc])
    have hcs : Separator ∉ cs := fun hm => h (List.mem_cons_of_mem _ hm)
    have hb : (c != Separator) = true := by simp [hc]
    simp [List.takeWhile, hb, ih hcs]

theorem dirPart_append_sep (x last : List Char) (h : Separator ∉ last) :
    ((x ++ Separator :: last).reverse.dropWhile (fun c => c != Separator)).reverse
      = x ++ [Separator] := by
  have hr : Separator ∉ last.reverse := by simpa using h
  have : (x ++ Separator :: last).reverse = last.reverse ++ Separator :: x.reverse := by simp
  rw [this, dropWhile_ne_sep_of_sepFree _ _ hr]
  simp

theorem dirPart_of_sepFree (last : List Char) (h : Separator ∉ last) :
    (last.reverse.dropWhile (fun c => c != Separator)).reverse = [] := by
  have hr : Separator ∉ last.reverse := by simpa using h
  rw [dropWhile_ne_sep_all _ hr]
  rfl

theorem Base_append_sep (x last : List Char) (hne : last ≠ []) (h : Separator ∉ last) :
    Base (x ++ Separator :: last) = last := by
  have hr : Separator ∉ last.reverse := by simpa using h
  have hrev : (x ++ Separator :: last).reverse = last.reverse ++ Separator :: x.reverse := by
    simp
  obtain ⟨c, cs, hcs⟩ := List.exists_cons_of_ne_nil (by simpa using hne : last.reverse ≠ [])
  have hc : c ≠ Separator := fun hc => hr (by rw [hcs]; simp [hc])
  have hdrop : (last.reverse ++ Separator :: x.reverse).dropWhile (fun c => c == Separator)
      = last.reverse ++ Separator :: x.reverse := by
    have hb : (c == Separator) = false := by simp [hc]
    rw [hcs]
    simp [List.dropWhile, hb]
  unfold Base
  rw [if_neg (by simp)]
  simp only [hrev, hdrop, List.reverse_reverse, takeWhile_ne_sep_of_sepFree _ _ hr]
  rw [if_neg hne]

theorem Clean_of_split (path : List Char) (rooted : Bool) (stack : List (List Char))
    (hne : path ≠ []) (hroot : decide (path.head? = some Separator) = rooted)
    (hfold : (splitSep path).foldl (cleanStep rooted) [] = stack)
    (hout : (if rooted = true then [Separator] else []) ++ joinSep stack.reverse ≠ []) :
    Clean path = (if rooted = true then [Separator] else []) ++ joinSep stack.reverse := by
  unfold Clean
  rw [if_neg hne]
  simp only [hroot, hfold]
  rw [if_neg hout]

theorem Clean_dirPart (rooted : Bool) (rest : List (List Char)) (hne : rest ≠ [])
    (hrest : CleanStack rooted rest)
    (hX : (if rooted = true then [Separator] else []) ++ joinSep rest.reverse ≠ [])
    (hroot : decide ((((if rooted = true then [Separator] else []) ++ joinSep rest.reverse)
        ++ [Separator]).head? = some Separator) = rooted) :
    Clean (((if rooted = true then [Separator] else []) ++ joinSep rest.reverse) ++ [Separator])
      = (if rooted = true then [Separator] else []) ++ joinSep rest.reverse := by
  have hrne : rest.reverse ≠ [] := by simpa using hne
  have hsf : ∀ x ∈ rest.reverse ++ [[]], Separator ∉ x := by
    intro x hx
    rcases List.mem_append.1 hx with hx | hx
    · exact CleanStack_sepFree rooted rest hrest x (List.mem_reverse.1 hx)
    · simp at hx
      simp [hx]
  have hsplit : splitSep (joinSep rest.reverse ++ [Separator]) = rest.reverse ++ [[]] := by
    rw [← joinSep_concat rest.reverse [] hrne, splitSep_joinSep _ (by simp) hsf]
  have hfold : (rest.reverse ++ [[]]).foldl (cleanStep rooted) [] = rest := by
    rw [List.foldl_append, foldl_cleanStep_of_cleanStack rooted rest.reverse []
      (by simpa using hrest)]
    simp [cleanStep]
  have h := Clean_of_split
    (((if rooted = true then [Separator] else []) ++ joinSep rest.reverse) ++ [Separator])
    rooted rest (by simp) hroot ?_ (by simpa using hX)
  · simpa using h
  · cases rooted with
    | true =>
      have e : (([Separator] ++ joinSep rest.reverse) ++ [Separator])
          = Separator :: (joinSep rest.reverse ++ [Separator]) := by simp
      simp only [if_true]
      rw [e, splitSep, if_pos rfl, hsplit, List.foldl_cons]
      have h0 : cleanStep true [] [] = [] := by simp [cleanStep]
      rw [h0, hfold]
    | false =>
      simp only [Bool.false_eq_true, if_false, List.nil_append]
      rw [hsplit, hfold]

/-- A cleaned path whose parent directory is neither `.` nor the root is its
parent directory, a separator and its base name. -/
theorem Clean_eq_parent_base (src : List Char) (hclean : Clean src = src)
    (hdot : Dir src ≠ ['.']) (hsep : Dir src ≠ [Separator]) :
    src = Dir src ++ Separator :: Base src := by
  have hne : src ≠ [] := by
    rintro rfl
    simp [Clean] at hclean
  generalize hrooted : decide (src.head? = some Separator) = rooted at *
  have hst : CleanStack rooted ((splitSep src).foldl (cleanStep rooted) []) :=
    foldl_cleanStep_cleanStack rooted _ [] trivial (splitSep_sepFree src)
  generalize hstack : (splitSep src).foldl (cleanStep rooted) [] = stack at hst
  have hcl : Clean src =
      if (if rooted = true then [Separator] else []) ++ joinSep stack.reverse = [] then ['.']
      else (if rooted = true then [Separator] else []) ++ joinSep stack.reverse := by
    unfold Clean
    rw [if_neg hne]
    simp only [hrooted, hstack]
  by_cases hout : (if rooted = true then [Separator] else []) ++ joinSep stack.reverse = []
  · rw [hcl, if_pos hout] at hclean
    rw [← hclean] at hdot
    exact absurd (by decide) hdot
  · rw [hcl, if_neg hout] at hclean
    cases stack with
    | nil =>
      cases rooted with
      | true =>
        simp only [if_true, List.reverse_nil, joinSep, List.append_nil] at hclean
        rw [← hclean] at hsep
        exact absurd (by decide) hsep
      | false => simp [joinSep] at hout
    | cons last rest =>
      obtain ⟨hrest, hl1, -, hl3, -⟩ := hst
      by_cases hr : rest = []
      · subst hr
        cases rooted with
        | true =>
          have hsrc : src = [] ++ Separator :: last := by
            rw [← hclean]
            simp [joinSep]
          exfalso
          apply hsep
          unfold Dir
          rw [hsrc, dirPart_append_sep [] last hl3]
          decide
        | false =>
          have hsrc : src = last := by
            rw [← hclean]
            simp [joinSep]
          exfalso
          apply hdot
          unfold Dir
          rw [hsrc, dirPart_of_sepFree last hl3]
          decide
      · have hrne : rest.reverse ≠ [] := by simpa using hr
        have hsrc : src = ((if rooted = true then [Separator] else []) ++ joinSep rest.reverse)
            ++ Separator :: last := by
          rw [← hclean, List.reverse_cons, joinSep_concat _ _ hrne, List.append_assoc]
        have hdp : (src.reverse.dropWhile (fun c => c != Separator)).reverse
            = ((if rooted = true then [Separator] else []) ++ joinSep rest.reverse)
              ++ [Separator] := by
          rw [hsrc]
          exact dirPart_append_sep _ last hl3
        have hX : (if rooted = true then [Separator] else []) ++ joinSep rest.reverse ≠ [] := by
          intro hX
          apply hsep
          unfold Dir
          rw [hdp, hX]
          decide
        have hroot : decide ((((if rooted = true then [Separator] else [])
            ++ joinSep rest.reverse) ++ [Separator]).head? = some Separator) = rooted := by
          obtain ⟨c, cs, hcs⟩ := List.exists_cons_of_ne_nil hX
          have h1 : src.head? = some c := by
            rw [hsrc, hcs]
            rfl
          have h2 : (((if rooted = true then [Separator] else []) ++ joinSep rest.reverse)
              ++ [Separator]).head? = some c := by
            rw [hcs]
            rfl
          rw [h2, ← hrooted, h1]
        have hDir : Dir src
            = (if rooted = true then [Separator] else []) ++ joinSep rest.reverse := by
          unfold Dir
          rw [hdp]
          exact Clean_dirPart rooted rest hr hrest hX hroot
        have hBase : Base src = last := by
          rw [hsrc]
          exact Base_append_sep _ last hl1 hl3
        rw [hDir, hBase]
        exact hsrc

/-! ## The walk inside `Tar` -/

theorem Tar_of_stat_ok {σ : Type} (P : Encoders σ) (fs : FS) (src : Path) (w : World σ)
    (hstat : stat (fs.lookup src) = .ok ()) :
    Tar P fs src w =
      (⟨(P.closeGzip (P.closeTar (runVisits (tarWalkFn P src) (visits src (fs.lookup src))
            ⟨w.enc, w.trace ++ [.stat src, .newGzip, .newTar]⟩).1.enc).1).1,
        (runVisits (tarWalkFn P src) (visits src (fs.lookup src))
            ⟨w.enc, w.trace ++ [.stat src, .newGzip, .newTar]⟩).1.trace
          ++ [.closeTar, .closeGzip]⟩,
       (runVisits (tarWalkFn P src) (visits src (fs.lookup src))
            ⟨w.enc, w.trace ++ [.stat src, .newGzip, .newTar]⟩).2) := by
  simp only [Tar, hstat, World.log, Walk_eq_runVisits, List.append_assoc, List.singleton_append,
    List.cons_append, List.nil_append]

/-! ## Properties of `Tar` and `Save` -/

/-- C3: when the stat of `src` fails with `e`, `Tar` returns the error
"Unable to tar files - " followed by `e`; the only event is the stat, so no gzip
or tar writer was created, and the encoders and the sink are as they were. -/
theorem Tar_stat_error {σ : Type} (P : Encoders σ) (fs : FS) (src : Path) (w : World σ)
    (e : Err) (hstat : stat (fs.lookup src) = .error e) :
    Tar P fs src w = (⟨w.enc, w.trace ++ [.stat src]⟩, some ("Unable to tar files - " ++ e)) ∧
      P.bytes (Tar P fs src w).1.enc = P.bytes w.enc := by
  simp [Tar, hstat, World.log]

theorem Tar_stat_error_witness :
    stat ((modelDir [] absentNode).lookup "modeldir/model".toList)
        = .error "no such file or directory" ∧
      Tar accepting (modelDir [] absentNode) "modeldir/model".toList ⟨⟨[7], 0⟩, []⟩
        = (⟨⟨[7], 0⟩, [] ++ [.stat "modeldir/model".toList]⟩,
            some ("Unable to tar files - " ++ "no such file or directory")) ∧
      accepting.bytes
          (Tar accepting (modelDir [] absentNode) "modeldir/model".toList ⟨⟨[7], 0⟩, []⟩).1.enc
        = accepting.bytes (⟨⟨[7], 0⟩, []⟩ : World SinkState).enc :=
  ⟨rfl, Tar_stat_error accepting (modelDir [] absentNode) "modeldir/model".toList ⟨⟨[7], 0⟩, []⟩
    "no such file or directory" rfl⟩

/-- C8: on every path of `Tar` after the encoders are created (the stat of `src`
succeeded), the events of the call are the stat, the two creations, the events
of the walk, then `tw.Close()` and then `gzw.Close()` as the last two; the events
of the walk are calls on the tar encoder and on read handles, none of them a
close of an encoder, so each encoder is closed once and nothing is written after. -/
theorem Tar_closes_encoders {σ : Type} (P : Encoders σ) (fs : FS) (src : Path) (w : World σ)
    (hstat : stat (fs.lookup src) = .ok ()) :
    ∃ evs, (Tar P fs src w).1.trace
        = w.trace ++ [.stat src, .newGzip, .newTar] ++ evs ++ [.closeTar, .closeGzip] ∧
      (∀ ev ∈ evs, ev.isFileEvent = true) ∧
      (∀ ev ∈ evs, ev ≠ Event.closeTar ∧ ev ≠ Event.closeGzip) ∧
      evs.count Event.closeTar = 0 ∧ evs.count Event.closeGzip = 0 := by
  obtain ⟨evs, htr, hpre⟩ := runVisits_prefix P src (visits src (fs.lookup src))
    ⟨w.enc, w.trace ++ [.stat src, .newGzip, .newTar]⟩
  have hfile : ∀ ev ∈ evs, ev.isFileEvent = true := fun ev hev =>
    flatMap_entryEvents_isFileEvent src _ ev (hpre.subset hev)
  have hne : ∀ ev ∈ evs, ev ≠ Event.closeTar ∧ ev ≠ Event.closeGzip := by
    intro ev hev
    have := hfile ev hev
    constructor <;> rintro rfl <;> simp [Event.isFileEvent] at this
  refine ⟨evs, ?_, hfile, hne, ?_, ?_⟩
  · rw [Tar_of_stat_ok P fs src w hstat]
    simp only [htr]
  · exact List.count_eq_zero.2 (fun hmem => (hne _ hmem).1 rfl)
  · exact List.count_eq_zero.2 (fun hmem => (hne _ hmem).2 rfl)

theorem Tar_closes_encoders_witness :
    stat ((modelDir [] unreadableTree).lookup "modeldir/model".toList) = .ok () ∧
    ∃ evs, (Tar accepting (modelDir [] unreadableTree) "modeldir/model".toList
          ⟨accepting.empty, []⟩).1.trace
        = [] ++ [.stat "modeldir/model".toList, .newGzip, .newTar] ++ evs
            ++ [.closeTar, .closeGzip] ∧
      (∀ ev ∈ evs, ev.isFileEvent = true) ∧
      (∀ ev ∈ evs, ev ≠ Event.closeTar ∧ ev ≠ Event.closeGzip) ∧
      evs.count Event.closeTar = 0 ∧ evs.count Event.closeGzip = 0 :=
  ⟨rfl, Tar_closes_encoders accepting (modelDir [] unreadableTree) "modeldir/model".toList
    ⟨accepting.empty, []⟩ rfl⟩

/-- When `Tar` succeeds, the events of the call are the stat, the two creations,
then for each regular file of the walk, in walk order, its header, the open, the
copy of its whole content and the close, then the two closes of the encoders.
The entries written to the tar encoder are so one per regular file, in walk
order, each with the file's size in the header and the file's bytes as content;
a tree with one subdirectory, one symbolic link and one regular file gives
exactly one entry. -/
theorem Tar_entries {σ : Type} (P : Encoders σ) (fs : FS) (src : Path) (w : World σ)
    (h : (Tar P fs src w).2 = none) :
    ∃ evs, (Tar P fs src w).1.trace = w.trace ++ evs ∧
      evs = [.stat src, .newGzip, .newTar]
          ++ (regularFiles (visits src (fs.lookup src))).flatMap (RegularFile.events src)
          ++ [.closeTar, .closeGzip] ∧
      entries evs = (regularFiles (visits src (fs.lookup src))).map (RegularFile.entry src) ∧
      (∀ f ∈ regularFiles (visits src (fs.lookup src)),
        (f.entry src).1.Size = f.content.length ∧ (f.entry src).2 = f.content) ∧
      (∀ a a1 a2 a3 n1 n2 n3 se content,
        fs.lookup src = .dir a none (.cons n1 (.dir a1 none .nil)
          (.cons n2 (.symlink a2 se) (.cons n3 (.regular a3 content none none) .nil))) →
        entries evs = [(tarHeader src (Join src n3) a3 content, content)]) := by
  have hstat : stat (fs.lookup src) = .ok () := by
    cases hs : stat (fs.lookup src) with
    | error e => simp [Tar, hs] at h
    | ok u => rfl
  rw [Tar_of_stat_ok P fs src w hstat] at h ⊢
  simp only [] at h
  obtain ⟨htr, hnf⟩ := runVisits_success P src _ _ h
  have hent : entries ([Event.stat src, Event.newGzip, Event.newTar]
      ++ (regularFiles (visits src (fs.lookup src))).flatMap (RegularFile.events src)
      ++ [Event.closeTar, Event.closeGzip])
      = (regularFiles (visits src (fs.lookup src))).map (RegularFile.entry src) := by
    simp only [List.cons_append, List.nil_append, entries]
    exact entries_fileEvents src _ _ rfl rfl
  refine ⟨_, ?_, rfl, hent, ?_, ?_⟩
  · simp only [htr, flatMap_entryEvents_of_no_fault src _ hnf, List.append_assoc]
  · intro f _
    exact ⟨rfl, rfl⟩
  · intro a a1 a2 a3 n1 n2 n3 se content hl
    rw [hent, hl]
    simp [visits, visitsNames, regularFiles, RegularFile.entry]

/-- C2 (the code at an input where the claim fails): `Save(".")` archives
`src = "model"` holding the files `a.b` and `ab`.  `Tar` succeeds and both
contents reach the sink, but the two entries carry the same name `model/ab`, so
extracting them leaves one file, with the bytes of `ab`, and the bytes of `a.b`
are in no extracted file. -/
theorem Tar_colliding_names :
    Join ".".toList ORMBModelDirectory = "model".toList ∧
    (Tar accepting (modelDir [] collidingTree) "model".toList ⟨accepting.empty, []⟩).2
      = none ∧
    regularFiles (visits "model".toList collidingTree)
      = [⟨"model/a.b".toList, ⟨420, 7⟩, [1, 2]⟩, ⟨"model/ab".toList, ⟨420, 7⟩, [3, 4]⟩] ∧
    entries (Tar accepting (modelDir [] collidingTree) "model".toList
        ⟨accepting.empty, []⟩).1.trace
      = [(⟨"model/ab".toList, 2, 420, 7⟩, [1, 2]), (⟨"model/ab".toList, 2, 420, 7⟩, [3, 4])] ∧
    accepting.bytes (Tar accepting (modelDir [] collidingTree) "model".toList
        ⟨accepting.empty, []⟩).1.enc = [1, 2, 3, 4] ∧
    extract (entries (Tar accepting (modelDir [] collidingTree) "model".toList
        ⟨accepting.empty, []⟩).1.trace)
      = [("model/ab".toList, [3, 4])] ∧
    (∀ f ∈ extract (entries (Tar accepting (modelDir [] collidingTree) "model".toList
        ⟨accepting.empty, []⟩).1.trace), f.2 ≠ [1, 2]) := by
  decide

/-- C4: when `Save(p)` succeeds, the metadata file was read and parsed, and the
model returned has `Path` equal to `p`, `Config` equal to the bytes read from
`<p>/ormbfile.yaml`, `Metadata` equal to what the parser returned for those
bytes, and `Content` equal to the bytes in the buffer after `Tar` ran on
`<p>/model` over the fresh buffer, and that run of `Tar` returned no error. -/
theorem Save_fields {σ M : Type} (P : Encoders σ) (parse : List Nat → Except Err M) (fs : FS)
    (p : Path) (m : Model M) (h : (Save P parse fs p).2 = .ok m) :
    ∃ dat metadata, fs.readFile (Join p ORMBfileName) = .ok dat ∧ parse dat = .ok metadata ∧
      m.Path = p ∧ m.Config = dat ∧ m.Metadata = metadata ∧
      (Tar P fs (Join p ORMBModelDirectory)
          ⟨P.empty, [.readFile (Join p ORMBfileName)]⟩).2 = none ∧
      m.Content = P.bytes (Tar P fs (Join p ORMBModelDirectory)
          ⟨P.empty, [.readFile (Join p ORMBfileName)]⟩).1.enc := by
  unfold Save at h
  cases hr : fs.readFile (Join p ORMBfileName) with
  | error e => simp [hr] at h
  | ok dat =>
    cases hp : parse dat with
    | error e => simp [hr, hp] at h
    | ok metadata =>
      simp only [hr, hp] at h
      rcases ht : Tar P fs (Join p ORMBModelDirectory)
          ⟨P.empty, [.readFile (Join p ORMBfileName)]⟩ with ⟨w, _ | e⟩
      · rw [ht] at h
        simp only [Except.ok.injEq] at h
        subst h
        exact ⟨dat, metadata, rfl, hp, rfl, rfl, rfl, rfl, rfl⟩
      · rw [ht] at h
        simp at h

theorem Save_fields_witness :
    (Save accepting rawParser (modelDir [110, 97] exampleTree) "modeldir".toList).2
        = .ok ⟨[110, 97], "modeldir".toList, [110, 97], [1, 2, 3]⟩ ∧
    ∃ dat metadata,
      (modelDir [110, 97] exampleTree).readFile (Join "modeldir".toList ORMBfileName) = .ok dat ∧
      rawParser dat = .ok metadata ∧
      (⟨[110, 97], "modeldir".toList, [110, 97], [1, 2, 3]⟩ : Model (List Nat)).Path
        = "modeldir".toList ∧
      (⟨[110, 97], "modeldir".toList, [110, 97], [1, 2, 3]⟩ : Model (List Nat)).Config = dat ∧
      (⟨[110, 97], "modeldir".toList, [110, 97], [1, 2, 3]⟩ : Model (List Nat)).Metadata
        = metadata ∧
      (Tar accepting (modelDir [110, 97] exampleTree) (Join "modeldir".toList ORMBModelDirectory)
          ⟨accepting.empty, [.readFile (Join "modeldir".toList ORMBfileName)]⟩).2 = none ∧
      (⟨[110, 97], "modeldir".toList, [110, 97], [1, 2, 3]⟩ : Model (List Nat)).Content
        = accepting.bytes (Tar accepting (modelDir [110, 97] exampleTree)
            (Join "modeldir".toList ORMBModelDirectory)
            ⟨accepting.empty, [.readFile (Join "modeldir".toList ORMBfileName)]⟩).1.enc :=
  ⟨rfl, Save_fields accepting rawParser (modelDir [110, 97] exampleTree) "modeldir".toList
    ⟨[110, 97], "modeldir".toList, [110, 97], [1, 2, 3]⟩ rfl⟩

/-- C5: when reading `<p>/ormbfile.yaml` fails with `e`, or the parser rejects
the bytes read with `e`, `Save(p)` returns the error `e` and no model, and the
only event of the call is the read of the metadata file: `Tar` did not run, no
path was stat-ed or opened and no encoder was created. -/
theorem Save_metadata_error {σ M : Type} (P : Encoders σ) (parse : List Nat → Except Err M)
    (fs : FS) (p : Path) (e : Err)
    (h : fs.readFile (Join p ORMBfileName) = .error e ∨
      ∃ dat, fs.readFile (Join p ORMBfileName) = .ok dat ∧ parse dat = .error e) :
    Save P parse fs p = ([.readFile (Join p ORMBfileName)], .error e) ∧
      (∀ q, Event.stat q ∉ (Save P parse fs p).1) ∧
      (∀ ev ∈ (Save P parse fs p).1, ev.isFileEvent = false ∧ ev ≠ .newGzip ∧ ev ≠ .newTar) := by
  have hs : Save P parse fs p = ([.readFile (Join p ORMBfileName)], .error e) := by
    rcases h with h | ⟨dat, h1, h2⟩
    · simp [Save, h]
    · simp [Save, h1, h2]
  rw [hs]
  simp [Event.isFileEvent]

theorem Save_metadata_error_witness :
    ((noMetadata exampleTree).readFile (Join "modeldir".toList ORMBfileName)
        = .error "no such file or directory" ∨
      ∃ dat, (noMetadata exampleTree).readFile (Join "modeldir".toList ORMBfileName) = .ok dat ∧
        rawParser dat = .error "no such file or directory") ∧
    (Save accepting rawParser (noMetadata exampleTree) "modeldir".toList
        = ([.readFile (Join "modeldir".toList ORMBfileName)],
            .error "no such file or directory") ∧
      (∀ q, Event.stat q ∉
        (Save accepting rawParser (noMetadata exampleTree) "modeldir".toList).1) ∧
      (∀ ev ∈ (Save accepting rawParser (noMetadata exampleTree) "modeldir".toList).1,
        ev.isFileEvent = false ∧ ev ≠ .newGzip ∧ ev ≠ .newTar)) :=
  ⟨Or.inl rfl, Save_metadata_error accepting rawParser (noMetadata exampleTree)
    "modeldir".toList "no such file or directory" (Or.inl rfl)⟩

/-- C6 (as amended): when the walk of `src` meets a first entry `v` with a fault
`e` (the entries `pre` before it have none), `Tar` returns an error, and the
events of the walk are a prefix of the events of the regular files in `pre`
followed by those of `v`, so nothing is written for an entry after `v`.  The
error is `e` itself, and the events are all of those, when the encoders accept
every header and content write of the run up to `v`; otherwise it is the error
of the first write they refuse.  `Save` on the model directory returns an error
and no model. -/
theorem Tar_first_fault {σ M : Type} (P : Encoders σ) (parse : List Nat → Except Err M)
    (fs : FS) (src : Path) (w : World σ) (pre : List (Path × Node)) (v : Path × Node)
    (post : List (Path × Node)) (e : Err)
    (hstat : stat (fs.lookup src) = .ok ())
    (hvis : visits src (fs.lookup src) = pre ++ v :: post)
    (hpre : ∀ u ∈ pre, fault u.2 = none) (hv : fault v.2 = some e) :
    (Tar P fs src w).2 ≠ none ∧
    (∃ evs, (Tar P fs src w).1.trace
        = w.trace ++ [.stat src, .newGzip, .newTar] ++ evs ++ [.closeTar, .closeGzip] ∧
      evs <+: (regularFiles pre).flatMap (RegularFile.events src) ++ entryEvents src v ∧
      ((feed P ((regularFiles pre).flatMap (RegularFile.events src) ++ entryEvents src v)
          w.enc).2 = none →
        evs = (regularFiles pre).flatMap (RegularFile.events src) ++ entryEvents src v)) ∧
    ((feed P ((regularFiles pre).flatMap (RegularFile.events src) ++ entryEvents src v)
        w.enc).2 = none → (Tar P fs src w).2 = some e) ∧
    (∀ r, (feed P ((regularFiles pre).flatMap (RegularFile.events src) ++ entryEvents src v)
        w.enc).2 = some r → (Tar P fs src w).2 = some r) ∧
    (∀ p, Join p ORMBModelDirectory = src → ∃ e1, (Save P parse fs p).2 = .error e1) := by
  have hv0 : fault v.2 ≠ none := by simp [hv]
  have herr : ∀ w1 : World σ, (Tar P fs src w1).2 ≠ none := by
    intro w1
    rw [Tar_of_stat_ok P fs src w1 hstat, hvis]
    exact (runVisits_stops P src pre v post _ hv0).2
  have hflat : (pre ++ [v]).flatMap (entryEvents src)
      = (regularFiles pre).flatMap (RegularFile.events src) ++ entryEvents src v := by
    simp [List.flatMap_append, flatMap_entryEvents_of_no_fault src pre hpre]
  obtain ⟨hres, hall⟩ := runVisits_first_fault P src pre v
    ⟨w.enc, w.trace ++ [.stat src, .newGzip, .newTar]⟩ e hpre hv
  rw [hflat] at hres hall
  simp only [] at hres hall
  have htar : (Tar P fs src w).2
      = ((feed P ((regularFiles pre).flatMap (RegularFile.events src) ++ entryEvents src v)
          w.enc).2).or (some e) := by
    rw [Tar_of_stat_ok P fs src w hstat, hvis, (runVisits_stops P src pre v post _ hv0).1]
    exact hres
  refine ⟨herr w, ?_, ?_, ?_, ?_⟩
  · rw [Tar_of_stat_ok P fs src w hstat, hvis, (runVisits_stops P src pre v post _ hv0).1]
    obtain ⟨evs, htr, hpfx⟩ := runVisits_prefix P src (pre ++ [v])
      ⟨w.enc, w.trace ++ [.stat src, .newGzip, .newTar]⟩
    refine ⟨evs, ?_, hflat ▸ hpfx, ?_⟩
    · simp only [htr]
    · intro hnone
      have h2 := hall hnone
      rw [htr] at h2
      exact List.append_cancel_left h2
  · intro hnone
    rw [htar, hnone]
    rfl
  · intro r hr
    rw [htar, hr]
    rfl
  · intro p hp
    subst hp
    cases hr : fs.readFile (Join p ORMBfileName) with
    | error e0 => exact ⟨e0, by simp [Save, hr]⟩
    | ok dat =>
      cases hpar : parse dat with
      | error e0 => exact ⟨e0, by simp [Save, hr, hpar]⟩
      | ok metadata =>
        rcases ht : Tar P fs (Join p ORMBModelDirectory)
            ⟨P.empty, [.readFile (Join p ORMBfileName)]⟩ with ⟨w1, _ | e1⟩
        · exact absurd (by rw [ht]) (herr ⟨P.empty, [.readFile (Join p ORMBfileName)]⟩)
        · exact ⟨e1, by simp [Save, hr, hpar, ht]⟩

theorem Tar_first_fault_witness :
    stat ((modelDir [] unreadableTree).lookup "modeldir/model".toList) = .ok () ∧
    visits "modeldir/model".toList ((modelDir [] unreadableTree).lookup "modeldir/model".toList)
      = [("modeldir/model".toList, unreadableTree),
          ("modeldir/model/a.bin".toList, .regular ⟨420, 7⟩ [1, 2] none none)]
        ++ ("modeldir/model/b.bin".toList,
              .regular ⟨0, 7⟩ [3, 4] (some "permission denied") none)
          :: [("modeldir/model/c.bin".toList, .regular ⟨420, 7⟩ [5, 6] none none)] ∧
    (∀ u ∈ [("modeldir/model".toList, unreadableTree),
          ("modeldir/model/a.bin".toList, Node.regular ⟨420, 7⟩ [1, 2] none none)],
      fault u.2 = none) ∧
    fault (Node.regular ⟨0, 7⟩ [3, 4] (some "permission denied") none)
      = some "permission denied" ∧
    (feed accepting
      ((regularFiles [("modeldir/model".toList, unreadableTree),
            ("modeldir/model/a.bin".toList, Node.regular ⟨420, 7⟩ [1, 2] none none)]).flatMap
          (RegularFile.events "modeldir/model".toList)
        ++ entryEvents "modeldir/model".toList ("modeldir/model/b.bin".toList,
            .regular ⟨0, 7⟩ [3, 4] (some "permission denied") none))
      accepting.empty).2 = none ∧
    (Tar accepting (modelDir [] unreadableTree) "modeldir/model".toList
        ⟨accepting.empty, []⟩).2 = some "permission denied" ∧
    ∃ e1, (Save accepting rawParser (modelDir [] unreadableTree) "modeldir".toList).2
        = .error e1 :=
  ⟨rfl, rfl, by simp [unreadableTree, fault], rfl, rfl,
    (Tar_first_fault accepting rawParser (modelDir [] unreadableTree) "modeldir/model".toList
      ⟨accepting.empty, []⟩
      [("modeldir/model".toList, unreadableTree),
        ("modeldir/model/a.bin".toList, .regular ⟨420, 7⟩ [1, 2] none none)]
      ("modeldir/model/b.bin".toList, .regular ⟨0, 7⟩ [3, 4] (some "permission denied") none)
      [("modeldir/model/c.bin".toList, .regular ⟨420, 7⟩ [5, 6] none none)]
      "permission denied" rfl rfl (by simp [unreadableTree, fault]) rfl).2.2.1 rfl,
    (Tar_first_fault accepting rawParser (modelDir [] unreadableTree) "modeldir/model".toList
      ⟨accepting.empty, []⟩
      [("modeldir/model".toList, unreadableTree),
        ("modeldir/model/a.bin".toList, .regular ⟨420, 7⟩ [1, 2] none none)]
      ("modeldir/model/b.bin".toList, .regular ⟨0, 7⟩ [3, 4] (some "permission denied") none)
      [("modeldir/model/c.bin".toList, .regular ⟨420, 7⟩ [5, 6] none none)]
      "permission denied" rfl rfl (by simp [unreadableTree, fault]) rfl).2.2.2.2
      "modeldir".toList rfl⟩

/-- C6 (the statement as first written fails): in a snapshot whose first fault
is the file `b.bin` that cannot be opened, with the error "permission denied",
`Tar` over a sink that refuses every write stops at the header of `a.bin` and
returns the sink's error, not the error of `b.bin`. -/
theorem Tar_first_fault_not_returned :
    stat ((modelDir [] unreadableTree).lookup "modeldir/model".toList) = .ok () ∧
    visits "modeldir/model".toList ((modelDir [] unreadableTree).lookup "modeldir/model".toList)
      = [("modeldir/model".toList, unreadableTree),
          ("modeldir/model/a.bin".toList, .regular ⟨420, 7⟩ [1, 2] none none)]
        ++ ("modeldir/model/b.bin".toList,
              .regular ⟨0, 7⟩ [3, 4] (some "permission denied") none)
          :: [("modeldir/model/c.bin".toList, .regular ⟨420, 7⟩ [5, 6] none none)] ∧
    (∀ u ∈ [("modeldir/model".toList, unreadableTree),
          ("modeldir/model/a.bin".toList, Node.regular ⟨420, 7⟩ [1, 2] none none)],
      fault u.2 = none) ∧
    fault (Node.regular ⟨0, 7⟩ [3, 4] (some "permission denied") none)
      = some "permission denied" ∧
    (Tar refusing (modelDir [] unreadableTree) "modeldir/model".toList
        ⟨refusing.empty, []⟩).2 = some "sink: write refused" ∧
    (Tar refusing (modelDir [] unreadableTree) "modeldir/model".toList
        ⟨refusing.empty, []⟩).2 ≠ some "permission denied" ∧
    (Tar refusing (modelDir [] unreadableTree) "modeldir/model".toList
        ⟨refusing.empty, []⟩).1.trace
      = [.stat "modeldir/model".toList, .newGzip, .newTar,
          .writeHeader ⟨"model/a.bin".toList, 2, 420, 7⟩, .closeTar, .closeGzip] :=
  ⟨rfl, rfl, by simp [unreadableTree, fault], rfl, by decide, by decide, by decide⟩

/-- C10 (as amended): the name `Tar` computes is
`TrimPrefix(ReplaceAll(file, parentDir, ""), separator)` with
`parentDir = Dir(src)`; when `src` is a cleaned path, `parentDir` is not empty,
is neither the separator nor `.`, and occurs in `file` exactly once, as the
leading prefix followed by a separator, the name is `file` without that prefix
and that separator: the base name of `src` when `file` is `src`, and the base
name of `src`, a separator and the relative path when `file` is below `src`; for
`Save("modeldir")` and the file `modeldir/model/weights.bin` it is
`model/weights.bin`. -/
theorem headerName_prefix_once (src file rest : Path) (hclean : Clean src = src)
    (hne : Dir src ≠ []) (hsep : Dir src ≠ [Separator]) (hdot : Dir src ≠ ['.'])
    (hfile : file = Dir src ++ Separator :: rest) (hcount : Count file (Dir src) = 1) :
    headerName src file = TrimPrefix (ReplaceAll file (Dir src) []) [Separator] ∧
      headerName src file = rest ∧
      (file = src → headerName src file = Base src) ∧
      (∀ rel, file = src ++ Separator :: rel →
        headerName src file = Base src ++ Separator :: rel) ∧
      headerName (Join "modeldir".toList ORMBModelDirectory)
          (Join (Join "modeldir".toList ORMBModelDirectory) "weights.bin".toList)
        = "model/weights.bin".toList := by
  have hsrc := Clean_eq_parent_base src hclean hdot hsep
  have hname : headerName src file = rest := by
    subst hfile
    show TrimPrefix (ReplaceAll (Dir src ++ Separator :: rest) (Dir src) []) [Separator] = rest
    rw [ReplaceAll_prefix_once (Dir src) (Separator :: rest) hne hcount, TrimPrefix_separator]
  refine ⟨rfl, hname, ?_, ?_, by decide⟩
  · intro hrel
    have e : Dir src ++ Separator :: rest = Dir src ++ Separator :: Base src := by
      rw [← hsrc]
      exact hfile.symm.trans hrel
    rw [hname]
    exact List.cons_injective (List.append_cancel_left e)
  · intro rel hrel
    have e : Dir src ++ Separator :: rest
        = (Dir src ++ Separator :: Base src) ++ Separator :: rel := by
      rw [← hsrc]
      exact hfile.symm.trans hrel
    rw [hname]
    rw [List.append_assoc] at e
    exact List.cons_injective (List.append_cancel_left e)

theorem headerName_prefix_once_witness :
    Clean "modeldir/model".toList = "modeldir/model".toList ∧
    Dir "modeldir/model".toList ≠ [] ∧ Dir "modeldir/model".toList ≠ [Separator] ∧
    Dir "modeldir/model".toList ≠ ['.'] ∧
    "modeldir/model/weights.bin".toList
      = Dir "modeldir/model".toList ++ Separator :: "model/weights.bin".toList ∧
    Count "modeldir/model/weights.bin".toList (Dir "modeldir/model".toList) = 1 ∧
    "modeldir/model/weights.bin".toList
      = "modeldir/model".toList ++ Separator :: "weights.bin".toList ∧
    headerName "modeldir/model".toList "modeldir/model/weights.bin".toList
      = Base "modeldir/model".toList ++ Separator :: "weights.bin".toList ∧
    Base "modeldir/model".toList ++ Separator :: "weights.bin".toList
      = "model/weights.bin".toList :=
  ⟨by decide, by decide, by decide, by decide, by decide, by decide, by decide,
    (headerName_prefix_once "modeldir/model".toList "modeldir/model/weights.bin".toList
      "model/weights.bin".toList (by decide) (by decide) (by decide) (by decide) (by decide)
      (by decide)).2.2.2.1 "weights.bin".toList (by decide),
    by decide⟩

/-- C10 (the statement as first written fails): for `src = "modeldir/model/"`,
which ends in a separator, the parent `modeldir/model` is not empty, is not the
separator and occurs in the walked path `modeldir/model/weights.bin` exactly
once, as the leading prefix followed by a separator; the name is `weights.bin`,
while the base name of `src` is `model`. -/
theorem headerName_trailing_separator :
    Dir "modeldir/model/".toList = "modeldir/model".toList ∧
    Dir "modeldir/model/".toList ≠ [] ∧ Dir "modeldir/model/".toList ≠ [Separator] ∧
    Join "modeldir/model/".toList "weights.bin".toList = "modeldir/model/weights.bin".toList ∧
    "modeldir/model/weights.bin".toList
      = Dir "modeldir/model/".toList ++ Separator :: "weights.bin".toList ∧
    Count "modeldir/model/weights.bin".toList (Dir "modeldir/model/".toList) = 1 ∧
    headerName "modeldir/model/".toList "modeldir/model/weights.bin".toList
      = "weights.bin".toList ∧
    Base "modeldir/model/".toList = "model".toList ∧
    headerName "modeldir/model/".toList "modeldir/model/weights.bin".toList
      ≠ Base "modeldir/model/".toList ++ Separator :: "weights.bin".toList := by
  decide

/-- C1 (the code at inputs where the claim fails): `Save(".")` archives
`src = "model"`, whose parent is `"."`, and every `.` of the walked path
`model/weights.bin` is removed, so the header name is `model/weightsbin`; under
the root every separator is removed; and a parent `a` is removed from the
descendant `a/model/a/x` twice. -/
theorem headerName_removes_every_occurrence :
    Join ".".toList ORMBModelDirectory = "model".toList ∧
    Dir "model".toList = ".".toList ∧
    headerName "model".toList (Join "model".toList "weights.bin".toList)
      = "model/weightsbin".toList ∧
    Base "model".toList ++ Separator :: "weights.bin".toList = "model/weights.bin".toList ∧
    entries (Tar accepting (modelDir [] exampleTree) "model".toList
        ⟨accepting.empty, []⟩).1.trace
      = [(⟨"model/weightsbin".toList, 3, 420, 7⟩, [1, 2, 3])] ∧
    Dir "/model".toList = "/".toList ∧
    headerName "/model".toList "/model/a/b.bin".toList = "modelab.bin".toList ∧
    Dir "a/model".toList = "a".toList ∧
    headerName "a/model".toList "a/model/a/x".toList = "model//x".toList := by
  decide

/-- C7 (the code at an input where the claim fails): the read of
`weights.bin` fails after one byte; `Tar` returns the read error, the file was
opened and never closed, and one read handle is open when `Tar` returns. -/
theorem Tar_copy_error_leaves_handle_open :
    (Tar accepting (modelDir [] readFaultTree) "modeldir/model".toList
        ⟨accepting.empty, []⟩).2 = some "input/output error" ∧
    (Tar accepting (modelDir [] readFaultTree) "modeldir/model".toList
        ⟨accepting.empty, []⟩).1.trace
      = [.stat "modeldir/model".toList, .newGzip, .newTar,
          .writeHeader ⟨"model/weights.bin".toList, 3, 420, 7⟩,
          .openFile "modeldir/model/weights.bin".toList, .copy [1], .closeTar, .closeGzip] ∧
    openHandles (Tar accepting (modelDir [] readFaultTree) "modeldir/model".toList
        ⟨accepting.empty, []⟩).1.trace = 1 := by
  decide

/-- C9 (the code at an input where the claim fails): over a sink that refuses
every write, `Tar` of an empty directory returns no error; the only calls that
reach the sink are the closes, `tw.Close()` returns the sink's error, which is
dropped, and the sink has taken no byte. -/
theorem Tar_drops_close_error :
    (Tar refusing (modelDir [] emptyTree) "modeldir/model".toList ⟨refusing.empty, []⟩).2
      = none ∧
    (Tar refusing (modelDir [] emptyTree) "modeldir/model".toList ⟨refusing.empty, []⟩).1.trace
      = [.stat "modeldir/model".toList, .newGzip, .newTar, .closeTar, .closeGzip] ∧
    (refusing.closeTar refusing.empty).2 = some "sink: write refused" ∧
    (Tar refusing (modelDir [] emptyTree) "modeldir/model".toList ⟨refusing.empty, []⟩).1.enc
      = ⟨[], 1⟩ ∧
    refusing.bytes (Tar refusing (modelDir [] emptyTree) "modeldir/model".toList
        ⟨refusing.empty, []⟩).1.enc = [] := by
  decide

end Saver
